import Mathlib

/-!
Verification development for the embedmd markdown-embedding tool.

The Go sources are shallowly embedded over `List Char` (Go byte strings of
the relevant documents are ASCII, so bytes and characters coincide here).
Documents, lines, paths and patterns are `List Char`; fallible Go functions
return `Except String`; a Go nil-pointer dereference is modelled by an
`Option` layer returning `none`.
-/

namespace Embedmd

/-- Character sequences standing for Go strings / byte slices. -/
abbrev Str := List Char

/-- `strHasPre p s` is Go's `strings.HasPrefix(s, p)`. -/
def strHasPre : Str → Str → Bool
  | [], _ => true
  | _ :: _, [] => false
  | p :: ps, c :: cs => p = c && strHasPre ps cs

/-- Go's `unicode.IsSpace` restricted to the ASCII range (the only
characters the tool's trimming is exercised on). -/
def goIsSpace (c : Char) : Bool :=
  c = ' ' || c = '\t' || c = '\n' || c = '\x0b' || c = '\x0c' || c = '\r'

/-- Go's `strings.TrimSpace` / `bytes.TrimSpace` (ASCII subset). -/
def goTrimSpace (s : Str) : Str :=
  ((s.dropWhile goIsSpace).reverse.dropWhile goIsSpace).reverse

/-- Go's `strings.ReplaceAll(s, old, new)`, fuelled version.  When the fuel
runs out the remaining input is returned unchanged; the wrapper always
supplies enough fuel. -/
def goReplaceAllAux : Nat → Str → Str → Str → Str
  | 0, s, _, _ => s
  | fuel + 1, s, old, new =>
    match old with
    | [] =>
      match s with
      | [] => new
      | c :: cs => new ++ c :: goReplaceAllAux fuel cs [] new
    | _ :: _ =>
      if strHasPre old s then new ++ goReplaceAllAux fuel (s.drop old.length) old new
      else
        match s with
        | [] => []
        | c :: cs => c :: goReplaceAllAux fuel cs old new

/-- Go's `strings.ReplaceAll(s, old, new)` (all non-overlapping leftmost
occurrences of the literal `old` replaced by `new`). -/
def goReplaceAll (s old new : Str) : Str :=
  goReplaceAllAux (s.length + 1) s old new

/-- Go's `strings.HasSuffix(s, suf)` as used through `bytes.HasSuffix`. -/
def strHasSuf (suf s : Str) : Bool :=
  strHasPre suf.reverse s.reverse

/-! ### Line splitting: `bufio.Scanner` with `bufio.ScanLines`

`ScanLines` splits the input at `'\n'`, does not emit a final empty token
when the input ends with `'\n'`, and strips one trailing `'\r'` from each
line. -/

/-- Raw split of a character sequence at newlines; always non-empty
(`n` newlines yield `n+1` pieces). -/
def splitRaw : Str → List Str
  | [] => [[]]
  | c :: cs =>
    if c = '\n' then [] :: splitRaw cs
    else
      match splitRaw cs with
      | [] => [[c]]
      | h :: t => (c :: h) :: t

/-- `dropCR` of `bufio.ScanLines`: strip one trailing carriage return. -/
def dropCR (l : Str) : Str :=
  if l.getLast? = some '\r' then l.dropLast else l

/-- The sequence of lines a `bufio.Scanner` with `ScanLines` yields on the
given input. -/
def splitLinesC (s : Str) : List Str :=
  let ps := splitRaw s
  (if ps.getLast? = some [] then ps.dropLast else ps).map dropCR

/-- Concatenate lines, terminating each with a newline (the effect of
echoing each line with `fmt.Fprintln`). -/
def joinNL (ls : List Str) : Str :=
  ls.foldr (fun l acc => l ++ '\n' :: acc) []

/-! ### Regular expressions

The extractor compiles patterns with Go's `regexp.CompilePOSIX` and uses
`FindIndex`: the overall match is leftmost, and among the matches at the
leftmost position the longest is taken.  We embed the fragment of the
syntax the tool's directives use: literal characters, `\`-escaped
punctuation, `.` (any character except newline), and `*` applied to a
single-character atom.  On this fragment POSIX-longest and Go's
non-POSIX `regexp.Compile` used by the substitution engine agree, so one
matcher serves both.  Patterns outside the fragment fail to compile in the
model. -/

/-- A single-character regex atom. -/
inductive RAtom where
  | lit (c : Char)
  | any
  deriving DecidableEq, Repr

/-- One compiled regex item: an atom, possibly starred. -/
structure RItem where
  atom : RAtom
  starred : Bool
  deriving DecidableEq, Repr

/-- Whether an atom matches one character (`.` does not match newline,
matching Go's default). -/
def atomMatches : RAtom → Char → Bool
  | .lit c, d => c = d
  | .any, d => d ≠ '\n'

/-- Whole-string regex matching, fuelled (every recursive call shrinks
`re.length + s.length`, so the wrapper's fuel is always enough). -/
def reMatchAux : Nat → List RItem → Str → Bool
  | 0, _, _ => false
  | _ + 1, [], s => s.isEmpty
  | fuel + 1, ⟨a, false⟩ :: rest, s =>
    match s with
    | [] => false
    | c :: s' => atomMatches a c && reMatchAux fuel rest s'
  | fuel + 1, ⟨a, true⟩ :: rest, s =>
    reMatchAux fuel rest s ||
      match s with
      | [] => false
      | c :: s' => atomMatches a c && reMatchAux fuel (⟨a, true⟩ :: rest) s'

/-- Whole-string regex matching for a compiled item sequence. -/
def reMatch (re : List RItem) (s : Str) : Bool :=
  reMatchAux (re.length + s.length + 1) re s

/-- Regex metacharacters outside the embedded fragment. -/
def metaChar (c : Char) : Bool :=
  c = '(' || c = ')' || c = '[' || c = ']' || c = '\x7b' || c = '\x7d' ||
  c = '|' || c = '+' || c = '?' || c = '^' || c = '$' || c = '*'

/-- Compile a pattern string into an item sequence (the embedded fragment
of `regexp.CompilePOSIX`); other syntax yields a compile error. -/
def compileRx : Str → Except String (List RItem)
  | [] => .ok []
  | '\\' :: [] => .error "error parsing regexp: trailing backslash"
  | '\\' :: c :: '*' :: rest =>
    if c.isAlphanum then .error "error parsing regexp: unsupported escape"
    else (compileRx rest).map (⟨.lit c, true⟩ :: ·)
  | '\\' :: c :: rest =>
    if c.isAlphanum then .error "error parsing regexp: unsupported escape"
    else (compileRx rest).map (⟨.lit c, false⟩ :: ·)
  | '*' :: _ => .error "error parsing regexp: missing argument to repetition operator"
  | c :: '*' :: rest =>
    if metaChar c then .error "error parsing regexp: unsupported syntax"
    else (compileRx rest).map (⟨if c = '.' then .any else .lit c, true⟩ :: ·)
  | c :: rest =>
    if metaChar c then .error "error parsing regexp: unsupported syntax"
    else (compileRx rest).map (⟨if c = '.' then .any else .lit c, false⟩ :: ·)

/-- Length of the longest prefix of `s` matched by `re`, if any. -/
def longestMatchLen (re : List RItem) (s : Str) : Option Nat :=
  (List.range (s.length + 1)).reverse.find? (fun j => reMatch re (s.take j))

/-- Go's `Regexp.FindIndex` under POSIX leftmost-longest semantics: the
half-open span of the leftmost, then longest, match. -/
def reFindIndex (re : List RItem) (s : Str) : Option (Nat × Nat) :=
  (List.range (s.length + 1)).findSome? fun i =>
    (longestMatchLen re (s.drop i)).map fun j => (i, i + j)

/-- Go's `Regexp.ReplaceAll` with a literal replacement, fuelled.  An empty
match consumes one input character after emitting the replacement, as in
Go; capture-group references in the replacement are outside the embedded
fragment (the fragment's patterns have no groups). -/
def replaceAllAux : Nat → List RItem → Str → Str → Str
  | 0, _, _, s => s
  | fuel + 1, re, repl, s =>
    match reFindIndex re s with
    | none => s
    | some (i, j) =>
      if i = j then
        match s.drop i with
        | [] => s.take i ++ repl
        | c :: cs => s.take i ++ repl ++ c :: replaceAllAux fuel re repl cs
      else s.take i ++ repl ++ replaceAllAux fuel re repl (s.drop j)

/-- Go's `Regexp.ReplaceAll` (literal replacement) on the fragment. -/
def replaceAllRe (re : List RItem) (repl s : Str) : Str :=
  replaceAllAux (s.length + 1) re repl s

/-! ### The command structure (`command.go`)

The struct declaration in `command.go` lists the fields through
`Substitutions`; the remaining fields (`Trim`, `TrimPrefix`, `TrimSuffix`,
`Template`, `yamlMode`) are the ones the rest of the package reads and
writes (`runCommand`, the YAML parser), so they belong to the same struct.
`Type` and `End` are renamed `Typ` and `End_` only because Lean reserves
those words. -/

/-- One `s/pattern/replacement/` rewrite rule. -/
structure Substitution where
  Pattern : Str
  Replacement : Str
  deriving DecidableEq, Repr

/-- A tokenized directive field: either a substitution or plain text. -/
structure parseField where
  subs : Option Substitution
  plain : Str
  deriving DecidableEq, Repr

/-- The parsed intent of one embed directive. -/
structure command where
  Path : Str
  Lang : Str
  Typ : Str
  Start : Option Str
  End_ : Option Str
  IncludeStart : Bool
  IncludeEnd : Bool
  Substitutions : List Substitution
  Trim : Bool
  TrimPre : Str
  TrimSuf : Str
  Template : Str
  yamlMode : Bool
  deriving DecidableEq, Repr

instance : Inhabited command :=
  ⟨⟨[], [], [], none, none, false, false, [], false, [], [], [], false⟩⟩

/-- The `typePlain` constant. -/
def typePlain : Str := "plain".data

/-- The `typeCode` constant. -/
def typeCode : Str := "code".data

/-- The `specials` escape-token table (iteration order of the Go map is
unspecified; the keys and replacements are disjoint, so any fixed order
gives the same result). -/
def specials : List (Str × Str) :=
  [("$embed:\x7bnewline\x7d".data, "\n".data),
   ("$embed:\x7bbraceOpen\x7d".data, "(".data),
   ("$embed:\x7bbraceClose\x7d".data, ")".data)]

/-- `replaceSpecial`: textually substitute the special escape tokens. -/
def replaceSpecial (s : Str) : Str :=
  specials.foldl (fun acc kv => goReplaceAll acc kv.1 kv.2) s

/-- `unescapeSlash`: rewrite `\/` to `/`. -/
def unescapeSlash (s : Str) : Str :=
  goReplaceAll s "\\/".data "/".data

/-- `nextSlash`: index of the next slash not directly preceded by a
backslash (`none` for Go's `-1`).  `prev` carries the previous character. -/
def nextSlashAux (prev : Option Char) : Str → Option Nat
  | [] => none
  | c :: cs =>
    if c = '/' && prev ≠ some '\\' then some 0
    else (nextSlashAux (some c) cs).map (· + 1)

/-- `nextSlash` of `command.go`. -/
def nextSlash (s : Str) : Option Nat :=
  nextSlashAux none s

/-- The `flags` table: unary tokens mutating the in-progress command. -/
def flagOf (s : Str) : Option (command → command) :=
  if s = "noCode".data then some (fun c => { c with Typ := typePlain })
  else if s = "noStart".data then some (fun c => { c with IncludeStart := false })
  else if s = "noEnd".data then some (fun c => { c with IncludeEnd := false })
  else none

/-- `fields` of `command.go`: tokenize the directive interior into plain
tokens, `/…/` tokens and `s/…/…/` substitution tokens.  Fuelled: the fuel
is spent one unit per produced field, and running out yields an error, so
an `ok` result always reflects the Go loop. -/
def fieldsAux : Nat → Str → Except String (List parseField)
  | 0, _ => .error "out of fuel"
  | fuel + 1, s0 =>
    let s := goTrimSpace s0
    if s.length = 0 then .ok []
    else if strHasPre "s/".data s then
      match nextSlash (s.drop 2) with
      | none => .error "unbalanced /"
      | some patternLen =>
        match nextSlash (s.drop (patternLen + 3)) with
        | none => .error "unbalanced /"
        | some subsLen =>
          let l := patternLen + subsLen + 4
          let sub : Substitution :=
            ⟨unescapeSlash ((s.drop 2).take patternLen),
             unescapeSlash ((s.drop (patternLen + 3)).take subsLen)⟩
          (fieldsAux fuel (s.drop l)).map (⟨some sub, []⟩ :: ·)
    else if s.head? = some '/' then
      match nextSlash (s.drop 1) with
      | none => .error "unbalanced /"
      | some sep => (fieldsAux fuel (s.drop (sep + 2))).map (⟨none, s.take (sep + 2)⟩ :: ·)
    else
      let sep := (s.drop 1).indexOf ' '
      if sep = (s.drop 1).length then .ok [⟨none, s⟩]
      else (fieldsAux fuel (s.drop (sep + 1))).map (⟨none, s.take (sep + 1)⟩ :: ·)

/-- `fields` of `command.go`. -/
def fields (s : Str) : Except String (List parseField) :=
  fieldsAux (s.length + 1) s

/-- `filepath.Ext`: the suffix beginning at the final dot in the final
path element; empty if there is no dot. -/
def goExtAux : Str → Str → Str
  | _, [] => []
  | acc, c :: cs =>
    if c = '.' then '.' :: acc
    else if c = '/' then []
    else goExtAux (c :: acc) cs

/-- `filepath.Ext` (forward-slash separators). -/
def goExt (p : Str) : Str :=
  goExtAux [] p.reverse

/-- The flag-consuming loop of `parseCommand`. -/
def applyFlags : command → List parseField → command × List parseField
  | c, [] => (c, [])
  | c, a :: r =>
    match flagOf a.plain with
    | some f => applyFlags (f c) r
    | none => (c, a :: r)

/-- The substitution-consuming loop of `parseCommand`. -/
def takeSubs : command → List parseField → command × List parseField
  | c, [] => (c, [])
  | c, a :: r =>
    match a.subs with
    | some s => takeSubs { c with Substitutions := c.Substitutions ++ [s] } r
    | none => (c, a :: r)

/-- The language-selection step of `parseCommand`: an explicit language
token if the next field qualifies, else the language derived from the
path's extension (`filepath.Ext(cmd.Path[1:])`), failing when that
extension is empty. -/
def langStep (cmd : command) (args : List parseField) :
    Except String (command × List parseField) :=
  match args with
  | a :: r =>
    if a.plain ≠ [] && a.plain.head? ≠ some '/' then
      .ok ({ cmd with Lang := a.plain }, r)
    else
      let ext := goExt (cmd.Path.drop 1)
      if ext.length = 0 then .error "language is required when file has no extension"
      else .ok ({ cmd with Lang := ext.drop 1 }, a :: r)
  | [] =>
    let ext := goExt (cmd.Path.drop 1)
    if ext.length = 0 then .error "language is required when file has no extension"
    else .ok ({ cmd with Lang := ext.drop 1 }, [])

/-- The body of `parseCommand` after tokenization: path, flags, language,
substitutions, then the remaining zero, one or two positional fields as
`start`/`end`. -/
def parseCommandArgs (a0 : parseField) (rest : List parseField) : Except String command :=
  let cmd0 : command :=
    { (default : command) with
        Path := a0.plain, Typ := typeCode, IncludeStart := true, IncludeEnd := true }
  let fl := applyFlags cmd0 rest
  match langStep fl.1 fl.2 with
  | .error e => .error e
  | .ok pr =>
    let ts := takeSubs pr.1 pr.2
    match ts.2 with
    | [] => .ok ts.1
    | [a] => .ok { ts.1 with Start := some a.plain }
    | [a, b] => .ok { ts.1 with Start := some a.plain, End_ := some b.plain }
    | _ => .error "too many arguments"

/-- `parseCommand` of `command.go`.  One deviation: Go's `cmd.Path[1:]`
panics when the path is empty (reachable only when the first field is an
`s/…/…/` token); the model's `List.drop` is total and then reports the
missing-language error instead. -/
def parseCommand (s0 : Str) : Except String command :=
  let s := replaceSpecial (goTrimSpace s0)
  if s.length < 2 || s.head? ≠ some '(' || s.getLast? ≠ some ')' then
    .error "argument list should be in parenthesis"
  else
    match fields ((s.drop 1).dropLast) with
    | .error e => .error e
    | .ok [] => .error "missing file name"
    | .ok (a0 :: rest) => parseCommandArgs a0 rest

/-! ### The extractor and the command runner (`embedmd.go`) -/

/-- `b[i:j]` for a Go byte slice. -/
def slice (b : Str) (i j : Nat) : Str :=
  (b.take j).drop i

/-- The `match` closure inside `extract`: strip the `/…/` delimiters in
inline mode, compile the pattern, and find the leftmost-longest match in
`b`. -/
def matchPattern (yamlMode : Bool) (b : Str) (s : Str) : Except String (Nat × Nat) := do
  let pattern ←
    if yamlMode then pure s
    else
      if s.length ≤ 2 || s.head? ≠ some '/' || s.getLast? ≠ some '/' then
        .error ("missing slashes (/) around \"" ++ String.mk s ++ "\"")
      else pure ((s.drop 1).dropLast)
  let re ← compileRx pattern
  match reFindIndex re b with
  | none => .error ("could not match \"" ++ String.mk s ++ "\"")
  | some loc => pure loc

/-- The trailing `if *c.End != "$"` block of `extract`, applied to the
(possibly already start-truncated) working content. -/
def extractEnd (c : command) (b : Str) (e : Str) : Except String Str :=
  if e ≠ "$".data then
    match matchPattern c.yamlMode b e with
    | .error err => .error err
    | .ok loc => .ok (b.take (if c.IncludeEnd then loc.2 else loc.1))
  else .ok b

/-- `extract` of `embedmd.go`.  The outer `Option` models the Go nil
pointer dereferences `*c.Start` / `*c.End`: `none` is a run-time panic,
and each dereference site in the source is mirrored by a `match` on the
option. -/
def extract (b0 : Str) (c : command) : Option (Except String Str) :=
  if c.Start = none ∧ c.End_ = none then some (.ok b0)
  else
    match c.Start with
    | none => none  -- Go: panic dereferencing *c.Start
    | some s =>
      if s ≠ [] then
        match matchPattern c.yamlMode b0 s with
        | .error e => some (.error e)
        | .ok loc =>
          match c.End_ with
          | none => some (.ok (slice b0 loc.1 loc.2))  -- return b[loc[0]:loc[1]]
          | some e =>
            some (extractEnd c (b0.drop (if c.IncludeStart then loc.1 else loc.2)) e)
      else
        match c.End_ with
        | none => none  -- Go: panic dereferencing *c.End
        | some e => some (extractEnd c b0 e)

/-- `replace` of `embedmd.go`: compile each substitution pattern at
execution time, in declared order, and replace all matches. -/
def replace (b : Str) : List Substitution → Except String Str
  | [] => .ok b
  | s :: rest => do
    let re ← compileRx s.Pattern
    replace (replaceAllRe re s.Replacement b) rest

/-- `applyTemplate` of `embedmd.go`.  Modelled fragment of Go
`text/template`: literal template text with `\x7b\x7b .Content \x7d\x7d`
actions, each substituted by the content; parse/execute failures of
templates outside this fragment are not modelled. -/
def applyTemplate (content : Str) (templateDef : Str) : Except String Str :=
  .ok (goReplaceAll templateDef "\x7b\x7b .Content \x7d\x7d".data content)

/-- The mount-point resolution loop at the top of `runCommand` (Go
iterates a map in unspecified order; the model fixes the list order). -/
def resolveMounts (mounts : List (Str × Str)) (path : Str) : Str :=
  mounts.foldl (fun p kv => goReplaceAll p kv.1 kv.2) path

/-- `runCommand`'s trailing-newline statement:
`if len(b) > 0 && b[len(b)-1] != '\n' { b = append(b, '\n') }`. -/
def ensureNewline (b : Str) : Str :=
  if b.length > 0 ∧ b.getLast? ≠ some '\n' then b ++ "\n".data else b

/-- `runCommand`'s `if cmd.Trim { b = bytes.TrimSpace(b) }`. -/
def trimIf (c : command) (b : Str) : Str :=
  if c.Trim then goTrimSpace b else b

/-- `runCommand`'s
`if cmd.TrimPrefix != "" { b = bytes.TrimPrefix(b, []byte(cmd.TrimPrefix)) }`
(`bytes.TrimPrefix` removes the prefix only when present). -/
def stripPre (c : command) (b : Str) : Str :=
  if c.TrimPre ≠ [] ∧ strHasPre c.TrimPre b then b.drop c.TrimPre.length else b

/-- `runCommand`'s
`if cmd.TrimSuffix != "" { b = bytes.TrimSuffix(b, []byte(cmd.TrimSuffix)) }`. -/
def stripSuf (c : command) (b : Str) : Str :=
  if c.TrimSuf ≠ [] ∧ strHasSuf c.TrimSuf b then b.take (b.length - c.TrimSuf.length) else b

/-- `runCommand`'s `if cmd.Template != "" { b, err = applyTemplate(...) }`. -/
def templateIf (c : command) (b : Str) : Except String Str :=
  if c.Template ≠ [] then applyTemplate b c.Template else .ok b

/-- The trailing-newline / fencing epilogue of `runCommand`: everything
written to `w` after the content pipeline finishes. -/
def writeOut (c : command) (b : Str) : Str :=
  (if c.Typ = typeCode then "```".data ++ c.Lang ++ "\n".data else []) ++
    b ++
    (if (c.Typ = typeCode ∨ c.yamlMode) ∧ ¬strHasSuf "\n".data b then "\n".data else []) ++
    (if c.Typ = typeCode then "```\n".data else [])

/-- `runCommand` of `embedmd.go`: resolve mounts, fetch, extract, append a
missing trailing newline, substitute, trim, strip prefix/suffix, trim
again, render the template, then write the (possibly fenced) result.  The
outer `Option` propagates `extract`'s panic case; the returned string is
everything written to `w`. -/
def runCommand (fetch : Str → Except String Str) (mounts : List (Str × Str))
    (cmd : command) : Option (Except String Str) :=
  let path := resolveMounts mounts cmd.Path
  match fetch path with
  | .error e => some (.error ("could not read " ++ String.mk path ++ ": " ++ e))
  | .ok b0 =>
    match extract b0 cmd with
    | none => none
    | some (.error e) =>
      some (.error ("could not extract content from " ++ String.mk path ++ ": " ++ e))
    | some (.ok b1) =>
      match replace (ensureNewline b1) cmd.Substitutions with
      | .error e =>
        some (.error ("could not replace content from " ++ String.mk path ++ ": " ++ e))
      | .ok b3 =>
        let b4 := trimIf cmd b3
        let b5 := stripPre cmd b4
        let b6 := stripSuf cmd b5
        let b7 := trimIf cmd b6
        match templateIf cmd b7 with
        | .error e =>
          some (.error ("could not apply template to content from " ++ String.mk path ++ ": " ++ e))
        | .ok b8 => some (.ok (writeOut cmd b8))

/-! ### The document scanner (`parser.go`)

`process` drives a state machine over the scanner's lines.  Each state
function performs exactly one `Scan`, so the machine is structural
recursion over the remaining line list; the `Nat` argument is the
1-based number of the last line scanned (`countingScanner.line`).  The
command runner and the YAML decoder (`yaml.Unmarshal`) are parameters,
exactly as `commandRunner` is a parameter of Go's `process`; errors carry
the line number that `process` prefixes with `"%d: %v"`.  Output is the
character stream written to `out` (echoes are `Fprintln`, so each echoed
line gains a newline). -/

/-- A runner: the `commandRunner` argument of `process`, returning the
bytes it writes to `out`. -/
abbrev Runner := command → Except String Str

/-- A YAML decoder: `yaml.Unmarshal` over the buffered block lines,
producing a command with `yamlMode` set. -/
abbrev Decoder := List Str → Except String command

/-- Does a line start the inline directive (`[embedmd]:#`)? -/
def isDirective (l : Str) : Bool :=
  strHasPre "[embedmd]:#".data l

/-- Does a line open or close a fenced code block (` ``` ` prefix)? -/
def isFence (l : Str) : Bool :=
  strHasPre "```".data l

/-- `line[strings.Index(line, "#")+1:]` of `parsingCmd`: the directive
argument text after the first `#` (the whole line if there is none). -/
def afterHash (l : Str) : Str :=
  if l.indexOf '#' = l.length then l else l.drop (l.indexOf '#' + 1)

/-- The scanner states of `parser.go`, with the line each state function
would read via `s.Text()` (the most recently scanned line). -/
inductive scanState where
  | text
  | cmdLine (cur : Str)
  | code (print : Bool) (cur : Str)
  | yamlCollect (buf : List Str) (cur : Str)
  deriving Repr

/-- The state-machine loop of `process`: `go run decode st n rest` runs the
machine from state `st` when `n` lines have been scanned (the current one
included for the non-`text` states) and `rest` is the unread remainder.
After a YAML block runs, `yamlParser` in drop mode scans and discards every
remaining line and then stops, so that branch returns directly.  In Go,
`parsingCmd` parses and runs the directive before calling `Scan`; here the
branch on the remaining input comes first and the (pure, lookahead-independent)
parse/run steps are repeated in both branches, which is equivalent. -/
def go (run : Runner) (decode : Decoder) :
    scanState → Nat → List Str → Except (Nat × String) Str
  | .text, _, [] => .ok []
  | .text, n, l :: r =>
    if n + 1 = 2 ∧ l = "embed:".data then go run decode (.yamlCollect [] l) (n + 1) r
    else if isDirective l then go run decode (.cmdLine l) (n + 1) r
    else if isFence l then go run decode (.code true l) (n + 1) r
    else (go run decode .text (n + 1) r).map (fun o => l ++ '\n' :: o)
  | .cmdLine l, n, [] =>
    match parseCommand (afterHash l) with
    | .error e => .error (n, e)
    | .ok cmd =>
      match run cmd with
      | .error e => .error (n, e)
      | .ok out => .ok (l ++ '\n' :: out)
  | .cmdLine l, n, l₂ :: r₂ =>
    match parseCommand (afterHash l) with
    | .error e => .error (n, e)
    | .ok cmd =>
      match run cmd with
      | .error e => .error (n, e)
      | .ok out =>
        if isFence l₂ then
          (go run decode (.code false l₂) (n + 1) r₂).map
            (fun o => l ++ '\n' :: (out ++ o))
        else
          (go run decode .text (n + 1) r₂).map
            (fun o => l ++ '\n' :: (out ++ l₂ ++ '\n' :: o))
  | .code _ _, n, [] => .error (n, "unbalanced code section")
  | .code p cur, n, l₂ :: r₂ =>
    if isFence l₂ then
      (go run decode .text (n + 1) r₂).map
        (fun o => if p then cur ++ '\n' :: (l₂ ++ '\n' :: o) else o)
    else
      (go run decode (.code p l₂) (n + 1) r₂).map
        (fun o => if p then cur ++ '\n' :: o else o)
  | .yamlCollect _ _, n, [] => .error (n, "unbalanced yaml section")
  | .yamlCollect buf cur, n, l₂ :: r₂ =>
    if l₂ = "---".data then
      match decode buf with
      | .error e => .error (n + 1, e)
      | .ok cmd =>
        match run cmd with
        | .error e => .error (n + 1, e)
        | .ok out => .ok (cur ++ '\n' :: ("---\n\n".data ++ out))
    else
      (go run decode (.yamlCollect (buf ++ [l₂]) l₂) (n + 1) r₂).map
        (fun o => cur ++ '\n' :: o)

/-- `process` of `parser.go`: scan the document's lines from the initial
state; an error is the pair of `countingScanner.line` and the underlying
message (Go renders it as `"%d: %v"`). -/
def process (run : Runner) (decode : Decoder) (doc : Str) : Except (Nat × String) Str :=
  go run decode .text 0 (splitLinesC doc)

/-- The `"%d: %v"` rendering of a `process` failure. -/
def renderErr (e : Nat × String) : String :=
  toString e.1 ++ ": " ++ e.2

/-- The runner `Process` wires in: `runCommand` over the configured
fetcher and mounts, with the `extract` panic case surfaced as an error
value so the runner stays a total function (the panic is never reached for
commands built by `parseCommand`). -/
def runnerOf (fetch : Str → Except String Str) (mounts : List (Str × Str)) : Runner :=
  fun c => (runCommand fetch mounts c).getD (.error "nil pointer dereference")

/-! ### The formatting pipeline as the specification phrases it

Spec §4.4 names six strictly ordered steps; `formatPipeline` is that
composition, written from the spec's wording.  The theorems relate
`runCommand` (written from the source) to it. -/

/-- The six-step §4.4 pipeline in the spec's order: trailing newline,
substitutions, trim, prefix/suffix removal, trim again, template. -/
def formatPipeline (c : command) (b : Str) : Except String Str := do
  let b2 ← replace (ensureNewline b) c.Substitutions
  templateIf c (trimIf c (stripSuf c (stripPre c (trimIf c b2))))

/-! ### Predicates for the idempotence analysis -/

/-- A line the scanner may re-read without ambiguity: it contains no
newline (so echoing and re-splitting round-trips) and does not end in a
carriage return (which `bufio.ScanLines` would strip on the next pass). -/
def cleanLine (l : Str) : Prop :=
  '\n' ∉ l ∧ l.getLast? ≠ some '\r'

instance (l : Str) : Decidable (cleanLine l) := by
  unfold cleanLine; infer_instance

/-- A runner output that re-scans as one balanced fenced block: an opening
fence line, interior lines that are not fences, and a closing fence line,
each newline-terminated and clean. -/
def FencedOutput (R : Str) : Prop :=
  ∃ f₀ body f₁,
    R = joinNL (f₀ :: body ++ [f₁]) ∧ isFence f₀ = true ∧ isFence f₁ = true ∧
      (∀ x ∈ body, isFence x = false) ∧ (∀ l ∈ f₀ :: body ++ [f₁], cleanLine l)

/-- A runner all of whose successful outputs are balanced fenced blocks
(what `runCommand` produces for `type == Code` commands whose content has
no fence-opening lines). -/
def GoodRunner (run : Runner) : Prop :=
  ∀ c R, run c = .ok R → FencedOutput R

/-- The no-adjacent-directives side condition: a directive line is never
directly followed by another one (the scanner echoes the line after a
directive without interpreting it, so such a document cannot re-scan to
itself). -/
def dirStep (a b : Str) : Prop :=
  isDirective a = true → isDirective b = false

instance : DecidableRel dirStep := fun a b =>
  inferInstanceAs (Decidable (isDirective a = true → isDirective b = false))

/-! ### Concrete fixtures used by witnesses and counterexamples -/

/-- A runner that fails on every command (used to observe that a region
never invokes the runner). -/
def failRunner : Runner := fun _ => .error "runner invoked"

/-- A decoder that fails on every block. -/
def failDecoder : Decoder := fun _ => .error "decoder invoked"

/-- A runner that writes a fixed balanced fenced block. -/
def fencedRunner : Runner := fun _ => .ok "```go\nx\n```\n".data

/-- A runner that writes fixed unfenced plain output. -/
def plainRunner : Runner := fun _ => .ok "R\n".data

/-- A decoder that accepts every block, yielding the default command. -/
def okDecoder : Decoder := fun _ => .ok default

/-- A fetcher serving exactly one file `code.go` with content `x`. -/
def fetchX : Str → Except String Str :=
  fun p => if p = "code.go".data then .ok "x".data else .error "file does not exist"

/-- Start-only extraction fixture: inline command with start
`/func main.*\n/` (spec §8's start-only example). -/
def cmdStartOnly : command where
  Path := []
  Lang := []
  Typ := []
  Start := some "/func main.*\n/".data
  End_ := none
  IncludeStart := true
  IncludeEnd := true
  Substitutions := []
  Trim := false
  TrimPre := []
  TrimSuf := []
  Template := []
  yamlMode := false

/-- Start+end extraction fixture: inline command with start `/fmt\.P/`,
end `/hello/` and `includeEnd = false` (spec §8's exclusion example). -/
def cmdStartEnd : command where
  Path := []
  Lang := []
  Typ := []
  Start := some "/fmt\\.P/".data
  End_ := some "/hello/".data
  IncludeStart := true
  IncludeEnd := false
  Substitutions := []
  Trim := false
  TrimPre := []
  TrimSuf := []
  Template := []
  yamlMode := false

/-- Pipeline fixture: a code-type command exercising substitution, trim,
suffix removal and template rendering. -/
def cmdPipe : command where
  Path := "f.go".data
  Lang := "go".data
  Typ := typeCode
  Start := none
  End_ := none
  IncludeStart := true
  IncludeEnd := true
  Substitutions := [⟨"a".data, "c".data⟩]
  Trim := true
  TrimPre := []
  TrimSuf := "b".data
  Template := "[\x7b\x7b .Content \x7d\x7d]".data
  yamlMode := false

/-- A fetcher serving `f.go` with content `ab`. -/
def fetchPipe : Str → Except String Str :=
  fun p => if p = "f.go".data then .ok "ab".data else .error "file does not exist"

/-- A fetcher serving `f.go` with content `y` (no trailing newline). -/
def fetchY : Str → Except String Str :=
  fun p => if p = "f.go".data then .ok "y".data else .error "file does not exist"

/-- Plain-type YAML-mode fixture whose final content lacks a newline. -/
def cmdPlainYaml : command where
  Path := "f.go".data
  Lang := "go".data
  Typ := typePlain
  Start := none
  End_ := none
  IncludeStart := true
  IncludeEnd := true
  Substitutions := []
  Trim := true
  TrimPre := []
  TrimSuf := []
  Template := []
  yamlMode := true

/-- Decidable equality for `Except` results, so witnesses can be checked
by evaluation. -/
instance {ε α : Type _} [DecidableEq ε] [DecidableEq α] : DecidableEq (Except ε α) :=
  fun x y =>
    match x, y with
    | .ok a, .ok b =>
      if h : a = b then .isTrue (by rw [h]) else .isFalse (fun hc => h (Except.ok.inj hc))
    | .error a, .error b =>
      if h : a = b then .isTrue (by rw [h]) else .isFalse (fun hc => h (Except.error.inj hc))
    | .ok _, .error _ => .isFalse (fun hc => Except.noConfusion hc)
    | .error _, .ok _ => .isFalse (fun hc => Except.noConfusion hc)

/-! ## Theorems -/

/-- The `match` closure in inline mode, given a slash-delimited pattern
that compiles and matches: it yields the leftmost-longest span. -/
theorem matchPattern_inline (b s : Str) (i j : Nat)
    (hlen : 2 < s.length) (hh : s.head? = some '/') (hl : s.getLast? = some '/')
    (hfs : (compileRx ((s.drop 1).dropLast)).map (fun re => reFindIndex re b) =
      .ok (some (i, j))) :
    matchPattern false b s = .ok (i, j) := by
  cases hre : compileRx ((s.drop 1).dropLast) with
  | error e =>
    rw [hre] at hfs
    simp [Except.map] at hfs
  | ok re =>
    rw [hre] at hfs
    have hfind : reFindIndex re b = some (i, j) := by
      simpa [Except.map] using hfs
    have h1 : ¬ s.length ≤ 2 := by omega
    rw [List.drop_one] at hre
    simp [matchPattern, h1, hh, hl, hre, hfind, Bind.bind, Except.bind, pure, Except.pure]

/-- Inversion of a successful `runCommand`: the fetched bytes, the
extracted content, and the §4.4 pipeline result, of which the output is
the fenced/newline-adjusted rendering. -/
theorem runCommand_ok_inversion (fetch : Str → Except String Str)
    (mounts : List (Str × Str)) (c : command) (out : Str)
    (h : runCommand fetch mounts c = some (.ok out)) :
    ∃ b e fin,
      fetch (resolveMounts mounts c.Path) = .ok b ∧
      extract b c = some (.ok e) ∧
      formatPipeline c e = .ok fin ∧
      out = writeOut c fin := by
  unfold runCommand at h
  simp only [] at h
  cases hf : fetch (resolveMounts mounts c.Path) with
  | error e => rw [hf] at h; simp at h
  | ok b =>
    rw [hf] at h
    simp only [] at h
    cases hx : extract b c with
    | none => rw [hx] at h; simp at h
    | some r =>
      cases r with
      | error e => rw [hx] at h; simp at h
      | ok e1 =>
        rw [hx] at h
        simp only [] at h
        cases hr : replace (ensureNewline e1) c.Substitutions with
        | error er => rw [hr] at h; simp at h
        | ok b3 =>
          rw [hr] at h
          simp only [] at h
          cases ht : templateIf c (trimIf c (stripSuf c (stripPre c (trimIf c b3)))) with
          | error et => rw [ht] at h; simp at h
          | ok b8 =>
            rw [ht] at h
            simp only [] at h
            refine ⟨b, e1, b8, rfl, hx, ?_, ?_⟩
            · unfold formatPipeline
              rw [hr]
              simpa [Bind.bind, Except.bind] using ht
            · simpa using h.symm

/-- C5: pipeline order.  Every successful `runCommand` output is the
rendering of the §4.4 `formatPipeline` — trailing newline first, then the
substitutions in declared order (each compiled at execution time, all
non-overlapping matches replaced, per `replace`), trim, literal
prefix/suffix removal, trim again, and the template last — applied to the
extracted content. -/
theorem runCommand_pipeline_order (fetch : Str → Except String Str)
    (mounts : List (Str × Str)) (c : command) (out : Str)
    (h : runCommand fetch mounts c = some (.ok out)) :
    ∃ b e fin,
      fetch (resolveMounts mounts c.Path) = .ok b ∧
      extract b c = some (.ok e) ∧
      formatPipeline c e = .ok fin ∧
      out = writeOut c fin :=
  runCommand_ok_inversion fetch mounts c out h

/-- Witness for C5: a command with an active substitution, trim, suffix
removal and template; `runCommand` produces exactly the pipeline's
rendering. -/
theorem runCommand_pipeline_order_witness :
    ∃ b e fin,
      fetchPipe (resolveMounts [] cmdPipe.Path) = .ok b ∧
      extract b cmdPipe = some (.ok e) ∧
      formatPipeline cmdPipe e = .ok fin ∧
      "```go\n[c]\n```\n".data = writeOut cmdPipe fin :=
  runCommand_pipeline_order fetchPipe [] cmdPipe "```go\n[c]\n```\n".data (by decide)

/-- C6: the Plain-type trailing-newline mode split.  For a successful
`runCommand` on a `Plain`-type command, the written output is the final
pipeline content with a newline appended when it lacks one in YAML mode,
and exactly the final content, unpadded, in inline (`noCode`) mode. -/
theorem runCommand_plain_newline (fetch : Str → Except String Str)
    (mounts : List (Str × Str)) (c : command) (out : Str)
    (hp : c.Typ = typePlain)
    (h : runCommand fetch mounts c = some (.ok out)) :
    ∃ b e fin,
      fetch (resolveMounts mounts c.Path) = .ok b ∧
      extract b c = some (.ok e) ∧
      formatPipeline c e = .ok fin ∧
      ((c.yamlMode = true →
          out = fin ++ (if strHasSuf "\n".data fin then [] else "\n".data)) ∧
       (c.yamlMode = false → out = fin)) := by
  obtain ⟨b, e, fin, hf, hx, hfp, hout⟩ := runCommand_ok_inversion fetch mounts c out h
  have hne : c.Typ ≠ typeCode := by
    rw [hp]
    decide
  refine ⟨b, e, fin, hf, hx, hfp, ?_, ?_⟩
  · intro hy
    rw [hout]
    by_cases hsuf : strHasSuf "\n".data fin = true
    · simp [writeOut, hne, hy, hsuf]
    · simp [writeOut, hne, hy, hsuf]
  · intro hy
    rw [hout]
    simp [writeOut, hne, hy]

/-- Witness for C6: a plain YAML-mode command whose final content `y`
lacks a newline; the output is `y` plus the forced newline. -/
theorem runCommand_plain_newline_witness :
    ∃ b e fin,
      fetchY (resolveMounts [] cmdPlainYaml.Path) = .ok b ∧
      extract b cmdPlainYaml = some (.ok e) ∧
      formatPipeline cmdPlainYaml e = .ok fin ∧
      ((cmdPlainYaml.yamlMode = true →
          "y\n".data = fin ++ (if strHasSuf "\n".data fin then [] else "\n".data)) ∧
       (cmdPlainYaml.yamlMode = false → "y\n".data = fin)) :=
  runCommand_plain_newline fetchY [] cmdPlainYaml "y\n".data (by decide) (by decide)

/-- C3: start-only extraction.  For every content and inline-mode command
whose start is a `/…/`-delimited pattern that compiles and matches (the
leftmost-longest span being `[i, j)`) and whose end is unset, `extract`
returns exactly the bytes of that span — no extension to line
boundaries. -/
theorem extract_start_only (b : Str) (c : command) (s : Str) (i j : Nat)
    (hm : c.yamlMode = false) (hs : c.Start = some s) (he : c.End_ = none)
    (hlen : 2 < s.length) (hh : s.head? = some '/') (hl : s.getLast? = some '/')
    (hfs : (compileRx ((s.drop 1).dropLast)).map (fun re => reFindIndex re b) =
      .ok (some (i, j))) :
    extract b c = some (.ok (slice b i j)) := by
  have hmp := matchPattern_inline b s i j hlen hh hl hfs
  have hs' : s ≠ [] := by
    intro h
    rw [h] at hlen
    simp at hlen
  simp [extract, hs, he, hs', hm, hmp]

/-- Witness for C3: the spec's start-only example, content
`"func main() {\n"` with start `/func main.*\n/` yields the whole
matched span `"func main() {\n"`. -/
theorem extract_start_only_witness :
    extract "func main() \x7b\n".data cmdStartOnly = some (.ok "func main() \x7b\n".data) := by
  have h := extract_start_only "func main() \x7b\n".data cmdStartOnly
    "/func main.*\n/".data 0 14 rfl rfl rfl (by decide) (by decide) (by decide) (by decide)
  simpa [slice] using h

/-- C4: start+end extraction order.  With both patterns set (end not the
sentinel `$`), `extract` first truncates the content at the start match
(at its start offset under `includeStart`, else its end offset) and only
then searches the end pattern within that remainder; the result ends at
the end match's end offset under `includeEnd`, else its start offset. -/
theorem extract_start_end_order (b : Str) (c : command) (s t : Str) (i j k l : Nat)
    (hm : c.yamlMode = false)
    (hs : c.Start = some s) (hslen : 2 < s.length)
    (hsh : s.head? = some '/') (hsl : s.getLast? = some '/')
    (he : c.End_ = some t) (hts : t ≠ "$".data) (htlen : 2 < t.length)
    (hth : t.head? = some '/') (htl : t.getLast? = some '/')
    (hfs : (compileRx ((s.drop 1).dropLast)).map (fun re => reFindIndex re b) =
      .ok (some (i, j)))
    (hfe : (compileRx ((t.drop 1).dropLast)).map
        (fun re => reFindIndex re (b.drop (if c.IncludeStart then i else j))) =
      .ok (some (k, l))) :
    extract b c =
      some (.ok ((b.drop (if c.IncludeStart then i else j)).take
        (if c.IncludeEnd then l else k))) := by
  have h1 := matchPattern_inline b s i j hslen hsh hsl hfs
  have h2 := matchPattern_inline (b.drop (if c.IncludeStart then i else j)) t k l
    htlen hth htl hfe
  have hs' : s ≠ [] := by
    intro h
    rw [h] at hslen
    simp at hslen
  simp [extract, extractEnd, hs, he, hs', hm, h1, h2, hts]

/-- Witness for C4: the spec's exclusion example — content
`fmt.Println("hello, test")`, start `/fmt\.P/`, end `/hello/`,
`includeEnd = false` yields `fmt.Println("`. -/
theorem extract_start_end_order_witness :
    extract "fmt.Println(\"hello, test\")".data cmdStartEnd =
      some (.ok "fmt.Println(\"".data) := by
  have h := extract_start_end_order "fmt.Println(\"hello, test\")".data cmdStartEnd
    "/fmt\\.P/".data "/hello/".data 0 5 13 18 rfl rfl (by decide) (by decide) (by decide)
    rfl (by decide) (by decide) (by decide) (by decide) (by decide) (by decide)
  simpa using h

/-- Any `goExtAux` result is empty or a dot followed by the accumulator
under some prefix. -/
theorem goExtAux_shape (l : Str) : ∀ acc, goExtAux acc l = [] ∨
    ∃ t, goExtAux acc l = '.' :: (t ++ acc) := by
  induction l with
  | nil => intro acc; left; rfl
  | cons c cs ih =>
    intro acc
    by_cases hc : c = '.'
    · right
      exact ⟨[], by simp [goExtAux, hc]⟩
    · by_cases hs : c = '/'
      · left
        simp [goExtAux, hc, hs]
      · rcases ih (c :: acc) with h | ⟨t, h⟩
        · left
          simpa [goExtAux, hc, hs] using h
        · right
          refine ⟨t ++ [c], ?_⟩
          simpa [goExtAux, hc, hs] using h

/-- If the extension is the bare dot, the scanned (reversed) path starts
with a dot. -/
theorem goExtAux_single_dot (l : Str) (h : goExtAux [] l = ['.']) :
    l.head? = some '.' := by
  cases l with
  | nil => simp [goExtAux] at h
  | cons c cs =>
    by_cases hc : c = '.'
    · simp [hc]
    · by_cases hs : c = '/'
      · simp [goExtAux, hc, hs] at h
      · rw [show goExtAux [] (c :: cs) = goExtAux [c] cs by simp [goExtAux, hc, hs]] at h
        rcases goExtAux_shape cs [c] with h' | ⟨t, h'⟩
        · rw [h'] at h
          cases h
        · rw [h'] at h
          have := List.cons.inj h
          have h2 := this.2
          simp at h2

/-- If `filepath.Ext` of a path is exactly `"."`, the path ends in a
dot. -/
theorem goExt_single_dot (p : Str) (h : goExt p = ['.']) :
    p.getLast? = some '.' := by
  unfold goExt at h
  have := goExtAux_single_dot p.reverse h
  rwa [List.head?_reverse] at this

/-- `applyFlags` only toggles `Typ`/`IncludeStart`/`IncludeEnd`. -/
theorem applyFlags_fst_path_lang (args : List parseField) : ∀ c : command,
    (applyFlags c args).1.Path = c.Path ∧ (applyFlags c args).1.Lang = c.Lang := by
  induction args with
  | nil => intro c; exact ⟨rfl, rfl⟩
  | cons a r ih =>
    intro c
    unfold applyFlags flagOf
    by_cases h1 : a.plain = "noCode".data
    · simpa [h1] using ih { c with Typ := typePlain }
    · by_cases h2 : a.plain = "noStart".data
      · simpa [h1, h2] using ih { c with IncludeStart := false }
      · by_cases h3 : a.plain = "noEnd".data
        · simpa [h1, h2, h3] using ih { c with IncludeEnd := false }
        · simp [h1, h2, h3]

/-- `takeSubs` only appends substitutions. -/
theorem takeSubs_fst_path_lang (args : List parseField) : ∀ c : command,
    (takeSubs c args).1.Path = c.Path ∧ (takeSubs c args).1.Lang = c.Lang := by
  induction args with
  | nil => intro c; exact ⟨rfl, rfl⟩
  | cons a r ih =>
    intro c
    unfold takeSubs
    cases a.subs with
    | none => simp
    | some su => simpa using ih { c with Substitutions := c.Substitutions ++ [su] }

/-- A last element survives `drop`. -/
theorem getLast?_of_drop (l : Str) (n : Nat) (x : Char)
    (h : (l.drop n).getLast? = some x) : l.getLast? = some x := by
  have h2 : l.drop n ≠ [] := by
    intro he
    rw [he] at h
    cases h
  calc l.getLast? = (l.take n ++ l.drop n).getLast? := by rw [List.take_append_drop]
    _ = (l.drop n).getLast? := List.getLast?_append_of_ne_nil _ h2
    _ = some x := h

/-- The language step: a successful result keeps the path and has a
non-empty language unless the path ends in a dot. -/
theorem langStep_ok (c : command) (args : List parseField) (c2 : command)
    (args2 : List parseField) (h : langStep c args = .ok (c2, args2)) :
    (c2.Lang ≠ [] ∨ c2.Path.getLast? = some '.') ∧ c2.Path = c.Path := by
  have extCase : ∀ (hlen : ¬(goExt (c.Path.drop 1)).length = 0)
      (hc2 : c2 = { c with Lang := (goExt (c.Path.drop 1)).drop 1 }),
      (c2.Lang ≠ [] ∨ c2.Path.getLast? = some '.') ∧ c2.Path = c.Path := by
    intro hlen hc2
    subst hc2
    refine ⟨?_, rfl⟩
    by_cases hL : (goExt (c.Path.drop 1)).drop 1 = []
    · right
      have hdot : goExt (c.Path.drop 1) = ['.'] := by
        rcases goExtAux_shape (c.Path.drop 1).reverse [] with hsh | ⟨t, hsh⟩
        · rw [show goExt (c.Path.drop 1) = goExtAux [] (c.Path.drop 1).reverse from rfl,
            hsh] at hlen
          simp at hlen
        · rw [show goExt (c.Path.drop 1) = goExtAux [] (c.Path.drop 1).reverse from rfl,
            hsh] at hL ⊢
          simp at hL
          simp [hL]
      have := goExt_single_dot (c.Path.drop 1) hdot
      exact getLast?_of_drop _ _ _ this
    · left
      simpa using hL
  cases args with
  | nil =>
    simp only [langStep] at h
    split at h
    · cases h
    · rename_i hlen
      have h1 := Except.ok.inj h
      exact extCase hlen (Prod.mk.inj h1).1.symm
  | cons a r =>
    simp only [langStep] at h
    by_cases hcond : (decide (a.plain ≠ []) && decide (a.plain.head? ≠ some '/')) = true
    · rw [if_pos hcond] at h
      have h1 := Except.ok.inj h
      have hc2 : c2 = { c with Lang := a.plain } := (Prod.mk.inj h1).1.symm
      subst hc2
      constructor
      · left
        simp only [Bool.and_eq_true, decide_eq_true_eq] at hcond
        simpa using hcond.1
      · rfl
    · rw [if_neg hcond] at h
      split at h
      · cases h
      · rename_i hlen
        have h1 := Except.ok.inj h
        exact extCase hlen (Prod.mk.inj h1).1.symm

/-- The post-tokenization parse: a successful command's language is
non-empty unless its path ends in a dot. -/
theorem parseCommandArgs_lang (a0 : parseField) (rest : List parseField) (cmd : command)
    (h : parseCommandArgs a0 rest = .ok cmd) :
    cmd.Lang ≠ [] ∨ cmd.Path.getLast? = some '.' := by
  unfold parseCommandArgs at h
  simp only [] at h
  set cmd0 : command :=
    { (default : command) with
        Path := a0.plain, Typ := typeCode, IncludeStart := true, IncludeEnd := true } with hcmd0
  cases hL : langStep (applyFlags cmd0 rest).1 (applyFlags cmd0 rest).2 with
  | error e =>
    rw [hL] at h
    cases h
  | ok pr =>
    rw [hL] at h
    simp only [] at h
    have hlso := langStep_ok (applyFlags cmd0 rest).1 (applyFlags cmd0 rest).2 pr.1 pr.2
      (by rw [hL])
    have htsl := (takeSubs_fst_path_lang pr.2 pr.1).2
    have htsp := (takeSubs_fst_path_lang pr.2 pr.1).1
    have hgoal : (takeSubs pr.1 pr.2).1.Lang ≠ [] ∨
        (takeSubs pr.1 pr.2).1.Path.getLast? = some '.' := by
      rw [htsl, htsp]
      exact hlso.1
    cases hT2 : (takeSubs pr.1 pr.2).2 with
    | nil =>
      rw [hT2] at h
      have := Except.ok.inj h
      rw [← this]
      exact hgoal
    | cons x xs =>
      cases xs with
      | nil =>
        rw [hT2] at h
        have := Except.ok.inj h
        rw [← this]
        simpa using hgoal
      | cons y ys =>
        cases ys with
        | nil =>
          rw [hT2] at h
          have := Except.ok.inj h
          rw [← this]
          simpa using hgoal
        | cons z zs =>
          rw [hT2] at h
          cases h

/-- `langStep` fails with the language-required error when the next field
(if any) does not qualify as an explicit language token and the path's
derived extension is empty. -/
theorem langStep_err (c : command) (args : List parseField)
    (hargs : ∀ a r, args = a :: r → a.plain = [] ∨ a.plain.head? = some '/')
    (hext : goExt (c.Path.drop 1) = []) :
    langStep c args = .error "language is required when file has no extension" := by
  have hext' : goExt c.Path.tail = [] := by rw [← List.drop_one]; exact hext
  cases args with
  | nil => simp [langStep, hext']
  | cons a r =>
    have ha := hargs a r rfl
    have hcond : ¬((decide (a.plain ≠ []) && decide (a.plain.head? ≠ some '/')) = true) := by
      rcases ha with h | h <;> simp [h]
    simp only [langStep]
    rw [if_neg hcond]
    simp [hext']

/-- `parseCommandArgs` fails with the language-required error when, after
the flag-consuming loop, no explicit language field follows and the path
field's extension is empty. -/
theorem parseCommandArgs_err (a0 : parseField) (rest : List parseField)
    (hargs : ∀ a r,
      (applyFlags { (default : command) with
          Path := a0.plain, Typ := typeCode, IncludeStart := true,
          IncludeEnd := true } rest).2 = a :: r →
      a.plain = [] ∨ a.plain.head? = some '/')
    (hext : goExt (a0.plain.drop 1) = []) :
    parseCommandArgs a0 rest = .error "language is required when file has no extension" := by
  unfold parseCommandArgs
  simp only []
  set cmd0 : command :=
    { (default : command) with
        Path := a0.plain, Typ := typeCode, IncludeStart := true, IncludeEnd := true } with hcmd0
  have hpath := (applyFlags_fst_path_lang rest cmd0).1
  have hls : langStep (applyFlags cmd0 rest).1 (applyFlags cmd0 rest).2 =
      .error "language is required when file has no extension" :=
    langStep_err _ _ hargs (by rw [hpath]; exact hext)
  rw [hls]

/-- C9 (amended): on every success of `parseCommand` the command's
language is non-empty — except when it is derived from a path whose final
element ends in a dot (extension exactly `"."`), in which case the parse
still succeeds with an empty language; and when the parenthesis check
passes, the directive tokenizes into a path field with an empty extension
and further fields, none of which (after the flag-consuming loop) is an
explicit language token, `parseCommand` fails with the language-required
error. -/
theorem parseCommand_lang_invariant :
    (∀ (s : Str) (cmd : command), parseCommand s = .ok cmd →
      cmd.Lang ≠ [] ∨ cmd.Path.getLast? = some '.') ∧
    (∀ (s : Str) (a0 : parseField) (rest : List parseField),
      ¬(replaceSpecial (goTrimSpace s)).length < 2 →
      (replaceSpecial (goTrimSpace s)).head? = some '(' →
      (replaceSpecial (goTrimSpace s)).getLast? = some ')' →
      fields (((replaceSpecial (goTrimSpace s)).drop 1).dropLast) = .ok (a0 :: rest) →
      (∀ a r, (applyFlags { (default : command) with
          Path := a0.plain, Typ := typeCode, IncludeStart := true,
          IncludeEnd := true } rest).2 = a :: r →
        a.plain = [] ∨ a.plain.head? = some '/') →
      goExt (a0.plain.drop 1) = [] →
      parseCommand s = .error "language is required when file has no extension") := by
  constructor
  · intro s cmd h
    unfold parseCommand at h
    simp only [] at h
    split at h
    · cases h
    · cases hf : fields (((replaceSpecial (goTrimSpace s)).drop 1).dropLast) with
      | error e =>
        rw [hf] at h
        cases h
      | ok args =>
        rw [hf] at h
        cases args with
        | nil => cases h
        | cons a0 rest => exact parseCommandArgs_lang a0 rest cmd h
  · intro s a0 rest h1 h2 h3 hf hargs hext
    unfold parseCommand
    simp only []
    rw [if_neg (by simp [h1, h2, h3])]
    rw [hf]
    exact parseCommandArgs_err a0 rest hargs hext

/-- Witness for C9's amended theorem: `(code.go)` parses with the
non-empty derived language `go`, while `(foo)` — extensionless path, no
explicit language — fails with the language-required error. -/
theorem parseCommand_lang_invariant_witness :
    (∃ cmd, parseCommand "(code.go)".data = .ok cmd ∧
      (cmd.Lang ≠ [] ∨ cmd.Path.getLast? = some '.')) ∧
    parseCommand "(foo)".data =
      .error "language is required when file has no extension" := by
  constructor
  · cases hp : parseCommand "(code.go)".data with
    | error e =>
      rw [show parseCommand "(code.go)".data = .ok
          { (default : command) with
              Path := "code.go".data, Lang := "go".data, Typ := typeCode,
              IncludeStart := true, IncludeEnd := true } from by decide] at hp
      cases hp
    | ok cmd => exact ⟨cmd, rfl, parseCommand_lang_invariant.1 _ cmd hp⟩
  · exact parseCommand_lang_invariant.2 "(foo)".data ⟨none, "foo".data⟩ []
      (by decide) (by decide) (by decide) (by decide)
      (fun a r h => by simp [applyFlags] at h)
      (by decide)

/-- Counterexample for C9 as stated: the argument list `(ab.)` has no
explicit language and a path whose extension is the bare dot;
`parseCommand` succeeds and the resulting language is empty. -/
theorem parseCommand_dot_path_empty_lang :
    parseCommand "(ab.)".data =
      .ok { (default : command) with
              Path := "ab.".data, Lang := [], Typ := typeCode,
              IncludeStart := true, IncludeEnd := true } := by
  decide

/-- C10: `extract` only guards the both-unset case.  Under the implicit
precondition — `start` is set whenever `end` is, and `end` is set whenever
`start` is the empty string — no unset optional field is ever read
(no panic, modelled as `extract ≠ none`); with `end` set but `start`
unset, or `start` empty and `end` unset (both constructible in YAML mode),
the dereference of the absent option is reached (`extract = none`). -/
theorem extract_deref_safety (b : Str) (c : command) :
    ((c.End_.isSome → c.Start.isSome) → (c.Start = some [] → c.End_.isSome) →
      extract b c ≠ none) ∧
    (c.Start = none → c.End_.isSome → extract b c = none) ∧
    (c.Start = some [] → c.End_ = none → extract b c = none) := by
  refine ⟨?_, ?_, ?_⟩
  · intro h1 h2
    rcases hS : c.Start with _ | s <;> rcases hE : c.End_ with _ | e
    · simp [extract, hS, hE]
    · exact absurd (h1 (by simp [hE])) (by simp [hS])
    · have hs : s ≠ [] := by
        intro h; subst h
        exact absurd (h2 hS) (by simp [hE])
      cases hm : matchPattern c.yamlMode b s <;>
        simp [extract, hS, hE, hs, hm]
    · by_cases hs : s = []
      · subst hs
        by_cases hd : e = "$".data
        · simp [extract, hS, hE, hd]
        · cases hm : matchPattern c.yamlMode b e <;>
            simp [extract, hS, hE, hd, hm]
      · cases hm : matchPattern c.yamlMode b s with
        | error err => simp [extract, hS, hE, hs, hm]
        | ok loc =>
          by_cases hd : e = "$".data
          · simp [extract, hS, hE, hs, hm, hd]
          · cases hm2 : matchPattern c.yamlMode
                (b.drop (if c.IncludeStart then loc.1 else loc.2)) e <;>
              simp [extract, hS, hE, hs, hm, hd, hm2]
  · intro hS hE
    rcases Option.isSome_iff_exists.mp hE with ⟨e, he⟩
    simp [extract, hS, he]
  · intro hS hE
    simp [extract, hS, hE]

/-- A fence line is not a directive line (their prefixes differ at the
first character). -/
theorem fence_not_directive (l : Str) (h : isFence l = true) : isDirective l = false := by
  cases l with
  | nil => simp [isFence, strHasPre] at h
  | cons c cs =>
    simp [isFence, strHasPre] at h
    simp [isDirective, strHasPre, ← h.1]

/-- A fence line is not the YAML opener `embed:`. -/
theorem fence_ne_embed (l : Str) (h : isFence l = true) : l ≠ "embed:".data := by
  cases l with
  | nil => simp [isFence, strHasPre] at h
  | cons c cs =>
    simp [isFence, strHasPre] at h
    intro hc
    rw [show ("embed:".data : Str) = 'e' :: "mbed:".data from rfl] at hc
    have := (List.cons.inj hc).1
    rw [← h.1] at this
    cases this

/-- A directive line is not the YAML opener `embed:`. -/
theorem directive_ne_embed (l : Str) (h : isDirective l = true) : l ≠ "embed:".data := by
  cases l with
  | nil => simp [isDirective, strHasPre] at h
  | cons c cs =>
    simp [isDirective, strHasPre] at h
    intro hc
    rw [show ("embed:".data : Str) = 'e' :: "mbed:".data from rfl] at hc
    have := (List.cons.inj hc).1
    rw [← h.1] at this
    cases this

/-- One scanner step from text state. -/
theorem go_text_cons (run : Runner) (decode : Decoder) (n : Nat) (l : Str) (r : List Str) :
    go run decode .text n (l :: r) =
      if n + 1 = 2 ∧ l = "embed:".data then go run decode (.yamlCollect [] l) (n + 1) r
      else if isDirective l then go run decode (.cmdLine l) (n + 1) r
      else if isFence l then go run decode (.code true l) (n + 1) r
      else (go run decode .text (n + 1) r).map (fun o => l ++ '\n' :: o) := rfl

/-- Text state at end of input: a clean stop. -/
theorem go_text_nil (run : Runner) (decode : Decoder) (n : Nat) :
    go run decode .text n [] = .ok [] := rfl

/-- One scanner step inside a code block. -/
theorem go_code_cons (run : Runner) (decode : Decoder) (p : Bool) (cur : Str) (n : Nat)
    (l₂ : Str) (r₂ : List Str) :
    go run decode (.code p cur) n (l₂ :: r₂) =
      if isFence l₂ then
        (go run decode .text (n + 1) r₂).map
          (fun o => if p then cur ++ '\n' :: (l₂ ++ '\n' :: o) else o)
      else
        (go run decode (.code p l₂) (n + 1) r₂).map
          (fun o => if p then cur ++ '\n' :: o else o) := rfl

/-- Code state at end of input: the unbalanced-code-section failure. -/
theorem go_code_nil (run : Runner) (decode : Decoder) (p : Bool) (cur : Str) (n : Nat) :
    go run decode (.code p cur) n [] = .error (n, "unbalanced code section") := rfl

/-- One scanner step while collecting a YAML block. -/
theorem go_yaml_cons (run : Runner) (decode : Decoder) (buf : List Str) (cur : Str)
    (n : Nat) (l₂ : Str) (r₂ : List Str) :
    go run decode (.yamlCollect buf cur) n (l₂ :: r₂) =
      (if l₂ = "---".data then
        match decode buf with
        | .error e => .error (n + 1, e)
        | .ok cmd =>
          match run cmd with
          | .error e => .error (n + 1, e)
          | .ok out => .ok (cur ++ '\n' :: ("---\n\n".data ++ out))
      else
        (go run decode (.yamlCollect (buf ++ [l₂]) l₂) (n + 1) r₂).map
          (fun o => cur ++ '\n' :: o)) := rfl

/-- YAML state at end of input: the unbalanced-yaml-section failure. -/
theorem go_yaml_nil (run : Runner) (decode : Decoder) (buf : List Str) (cur : Str) (n : Nat) :
    go run decode (.yamlCollect buf cur) n [] = .error (n, "unbalanced yaml section") := rfl

/-- The `parsingCmd` step at end of input, after a successful parse and
run: the directive echo plus the runner's output. -/
theorem go_cmd_nil (run : Runner) (decode : Decoder) (l : Str) (n : Nat)
    (cmd : command) (out : Str)
    (hp : parseCommand (afterHash l) = .ok cmd) (hr : run cmd = .ok out) :
    go run decode (.cmdLine l) n [] = .ok (l ++ '\n' :: out) := by
  simp [go, hp, hr]

/-- The `parsingCmd` step with a following line, after a successful parse
and run: a fence opens a dropped code block, anything else is echoed. -/
theorem go_cmd_cons (run : Runner) (decode : Decoder) (l : Str) (n : Nat)
    (l₂ : Str) (r₂ : List Str) (cmd : command) (out : Str)
    (hp : parseCommand (afterHash l) = .ok cmd) (hr : run cmd = .ok out) :
    go run decode (.cmdLine l) n (l₂ :: r₂) =
      if isFence l₂ then
        (go run decode (.code false l₂) (n + 1) r₂).map
          (fun o => l ++ '\n' :: (out ++ o))
      else
        (go run decode .text (n + 1) r₂).map
          (fun o => l ++ '\n' :: (out ++ l₂ ++ '\n' :: o)) := by
  simp [go, hp, hr]

/-- The `parsingCmd` step when the directive fails to parse. -/
theorem go_cmd_parse_err (run : Runner) (decode : Decoder) (l : Str) (n : Nat)
    (r : List Str) (e : String) (hp : parseCommand (afterHash l) = .error e) :
    go run decode (.cmdLine l) n r = .error (n, e) := by
  cases r <;> simp [go, hp]

/-- The `parsingCmd` step when the runner fails. -/
theorem go_cmd_run_err (run : Runner) (decode : Decoder) (l : Str) (n : Nat)
    (r : List Str) (cmd : command) (e : String)
    (hp : parseCommand (afterHash l) = .ok cmd) (hr : run cmd = .error e) :
    go run decode (.cmdLine l) n r = .error (n, e) := by
  cases r <;> simp [go, hp, hr]

/-- `codeParser.parse` over a fence-free interior followed by a closing
fence: the block is echoed verbatim when `print` is set (dropped
otherwise) and scanning resumes in text state after the closing fence. -/
theorem code_echo (run : Runner) (decode : Decoder) (p : Bool) (body : List Str) :
    ∀ (cur close : Str) (n : Nat) (tail : List Str),
      (∀ x ∈ body, isFence x = false) → isFence close = true →
      go run decode (.code p cur) n (body ++ close :: tail) =
        (go run decode .text (n + body.length + 1) tail).map
          (fun o => if p then cur ++ '\n' :: (joinNL body ++ close ++ '\n' :: o) else o) := by
  induction body with
  | nil =>
    intro cur close n tail _ hc
    rw [List.nil_append, go_code_cons, if_pos hc]
    cases hgo : go run decode .text (n + 1) tail <;>
      simp [hgo, joinNL]
  | cons x body' ih =>
    intro cur close n tail hb hc
    have hx : isFence x = false := hb x (by simp)
    rw [List.cons_append, go_code_cons, if_neg (by simp [hx])]
    rw [ih x close (n + 1) tail (fun y hy => hb y (by simp [hy])) hc]
    have harith : n + 1 + body'.length + 1 = n + (x :: body').length + 1 := by
      simp only [List.length_cons]
      omega
    rw [harith]
    cases hgo : go run decode .text (n + (x :: body').length + 1) tail with
    | error e => simp [hgo, Except.map]
    | ok o =>
      simp only [hgo, Except.map]
      cases p <;> simp [joinNL]

/-- C7: fenced pass-through.  From text state, a fenced block (fence line,
fence-free interior — directive-looking lines included — and closing
fence) is echoed to the output unchanged, and processing of the block is
independent of the runner and decoder: neither the command parser nor the
runner is consulted for any of its lines. -/
theorem fenced_block_passthrough (run : Runner) (decode : Decoder) (n : Nat)
    (fence close : Str) (body tail : List Str)
    (hf : isFence fence = true) (hb : ∀ x ∈ body, isFence x = false)
    (hc : isFence close = true) :
    go run decode .text n (fence :: (body ++ close :: tail)) =
      (go run decode .text (n + body.length + 2) tail).map
        (fun o => fence ++ '\n' :: (joinNL body ++ close ++ '\n' :: o)) := by
  have hnd := fence_not_directive fence hf
  have hne := fence_ne_embed fence hf
  rw [go_text_cons, if_neg (by simp [hne]), if_neg (by simp [hnd]), if_pos hf]
  rw [code_echo run decode true body fence close (n + 1) tail hb hc]
  have harith : n + 1 + body.length + 1 = n + body.length + 2 := by omega
  rw [harith]
  cases hgo : go run decode .text (n + body.length + 2) tail <;> simp [hgo]

/-- Witness for C7: a document whose only directive line sits inside a
fenced block processes to itself even under a runner and decoder that fail
whenever invoked. -/
theorem fenced_block_passthrough_witness :
    process failRunner failDecoder "```\n[embedmd]:# (code.go)\n```\nYay!\n".data =
      .ok "```\n[embedmd]:# (code.go)\n```\nYay!\n".data := by
  have h := fenced_block_passthrough failRunner failDecoder 0 "```".data "```".data
    ["[embedmd]:# (code.go)".data] ["Yay!".data] (by decide) (by decide) (by decide)
  unfold process
  rw [show splitLinesC "```\n[embedmd]:# (code.go)\n```\nYay!\n".data =
      "```".data :: (["[embedmd]:# (code.go)".data] ++ "```".data :: ["Yay!".data])
    from by decide]
  rw [h]
  decide

/-- `codeParser.parse` with no closing fence in the remaining input fails
with the unbalanced-code-section error at the last line read. -/
theorem code_unbalanced (run : Runner) (decode : Decoder) (p : Bool) (body : List Str) :
    ∀ (cur : Str) (n : Nat), (∀ x ∈ body, isFence x = false) →
      go run decode (.code p cur) n body =
        .error (n + body.length, "unbalanced code section") := by
  induction body with
  | nil =>
    intro cur n _
    rw [go_code_nil]
    simp
  | cons x r ih =>
    intro cur n hb
    have hx : isFence x = false := hb x (by simp)
    rw [go_code_cons, if_neg (by simp [hx])]
    rw [ih x (n + 1) (fun y hy => hb y (by simp [hy]))]
    simp only [Except.map]
    have : n + 1 + r.length = n + (x :: r).length := by
      simp only [List.length_cons]
      omega
    rw [this]

/-- Plain text lines (no directive, no fence, not the YAML opener) are
echoed one by one. -/
theorem text_prefix_walk (run : Runner) (decode : Decoder) (pre : List Str) :
    ∀ (n : Nat) (rest : List Str),
      (∀ l ∈ pre, isDirective l = false ∧ isFence l = false ∧ l ≠ "embed:".data) →
      go run decode .text n (pre ++ rest) =
        (go run decode .text (n + pre.length) rest).map (fun o => joinNL pre ++ o) := by
  induction pre with
  | nil =>
    intro n rest _
    rw [List.nil_append]
    cases hgo : go run decode .text n rest <;> simp [hgo, joinNL, Except.map]
  | cons l pre' ih =>
    intro n rest hp
    obtain ⟨hd, hf, he⟩ := hp l (by simp)
    rw [List.cons_append, go_text_cons, if_neg (by simp [he]), if_neg (by simp [hd]),
      if_neg (by simp [hf])]
    rw [ih (n + 1) rest (fun y hy => hp y (by simp [hy]))]
    have harith : n + 1 + pre'.length = n + (l :: pre').length := by
      simp only [List.length_cons]
      omega
    rw [harith]
    cases hgo : go run decode .text (n + (l :: pre').length) rest with
    | error e => simp [hgo, Except.map]
    | ok o => simp [hgo, joinNL, Except.map]

/-- C8: unbalanced fence failure.  A document whose lines are plain text,
then an opening fence, then only non-fence lines to the end of input,
fails with the unbalanced-code-section error, tagged with the 1-based
number of the last line read — the document's total line count (`process`
renders the pair as `"N: unbalanced code section"` via `renderErr`). -/
theorem process_unbalanced_fence (run : Runner) (decode : Decoder) (doc : Str)
    (pre : List Str) (fence : Str) (body : List Str)
    (hsplit : splitLinesC doc = pre ++ fence :: body)
    (hpre : ∀ l ∈ pre, isDirective l = false ∧ isFence l = false ∧ l ≠ "embed:".data)
    (hf : isFence fence = true) (hb : ∀ x ∈ body, isFence x = false) :
    process run decode doc =
      .error ((pre ++ fence :: body).length, "unbalanced code section") := by
  unfold process
  rw [hsplit, text_prefix_walk run decode pre 0 (fence :: body) hpre]
  have hnd := fence_not_directive fence hf
  have hne := fence_ne_embed fence hf
  rw [go_text_cons, if_neg (by simp [hne]), if_neg (by simp [hnd]), if_pos hf]
  rw [code_unbalanced run decode true body fence (0 + pre.length + 1) hb]
  simp only [Except.map]
  have : 0 + pre.length + 1 + body.length = (pre ++ fence :: body).length := by
    simp [List.length_append]
    omega
  rw [this]

/-- Witness for C8: the repository's own test vector — `one`, an opening
fence, `some code`, end of input — fails at line 3. -/
theorem process_unbalanced_fence_witness :
    process failRunner failDecoder "one\n```\nsome code\n".data =
      .error (3, "unbalanced code section") := by
  have h := process_unbalanced_fence failRunner failDecoder "one\n```\nsome code\n".data
    ["one".data] "```".data ["some code".data] (by decide) (by decide) (by decide) (by decide)
  simpa using h

/-- `splitRaw` never returns the empty list. -/
theorem splitRaw_ne_nil (s : Str) : splitRaw s ≠ [] := by
  cases s with
  | nil => simp [splitRaw]
  | cons c cs =>
    by_cases hc : c = '\n'
    · simp [splitRaw, hc]
    · simp only [splitRaw, hc, if_false]
      cases splitRaw cs <;> simp

/-- Splitting after a newline-free line and a newline peels that line. -/
theorem splitRaw_append_newline (l : Str) (s : Str) (hl : '\n' ∉ l) :
    splitRaw (l ++ '\n' :: s) = l :: splitRaw s := by
  induction l with
  | nil => simp [splitRaw]
  | cons c l' ih =>
    have hc : ¬ c = '\n' := by
      intro h
      exact hl (by simp [h])
    have ih' := ih (fun h => hl (by simp [h]))
    rw [List.cons_append]
    simp only [splitRaw, hc, if_false]
    rw [ih']

/-- Every raw piece is newline-free. -/
theorem splitRaw_no_newline (s : Str) : ∀ p ∈ splitRaw s, '\n' ∉ p := by
  induction s with
  | nil =>
    intro p hp
    simp [splitRaw] at hp
    simp [hp]
  | cons c cs ih =>
    intro p hp
    by_cases hc : c = '\n'
    · rw [show splitRaw (c :: cs) = [] :: splitRaw cs by simp [splitRaw, hc]] at hp
      rcases List.mem_cons.mp hp with h | h
      · simp [h]
      · exact ih p h
    · simp only [splitRaw, hc, if_false] at hp
      cases hsr : splitRaw cs with
      | nil => exact absurd hsr (splitRaw_ne_nil cs)
      | cons h t =>
        rw [hsr] at hp
        rcases List.mem_cons.mp hp with h' | h'
        · subst h'
          intro hmem
          rcases List.mem_cons.mp hmem with h'' | h''
          · exact hc h''.symm
          · exact ih h (by rw [hsr]; simp) h''
        · exact ih p (by rw [hsr]; simp [h'])

/-- The empty document has no lines. -/
theorem splitLinesC_nil : splitLinesC [] = [] := rfl

/-- A clean line keeps its shape under `dropCR`. -/
theorem dropCR_clean (l : Str) (h : cleanLine l) : dropCR l = l := by
  unfold dropCR
  rw [if_neg h.2]

/-- Scanning a clean, newline-terminated line peels it off the line
list. -/
theorem splitLinesC_cons (l : Str) (s : Str) (hl : cleanLine l) :
    splitLinesC (l ++ '\n' :: s) = l :: splitLinesC s := by
  unfold splitLinesC
  rw [splitRaw_append_newline l s hl.1]
  cases hsr : splitRaw s with
  | nil => exact absurd hsr (splitRaw_ne_nil s)
  | cons h t =>
    simp only []
    rw [List.getLast?_cons_cons]
    by_cases hlast : (h :: t).getLast? = some []
    · rw [if_pos hlast, if_pos hlast]
      rw [show (l :: h :: t).dropLast = l :: (h :: t).dropLast from rfl]
      simp [dropCR_clean l hl]
    · rw [if_neg hlast, if_neg hlast]
      simp [dropCR_clean l hl]

/-- Joined clean lines re-split to themselves in front of any
continuation. -/
theorem splitLinesC_joinNL_append (ls : List Str) (s : Str)
    (h : ∀ l ∈ ls, cleanLine l) :
    splitLinesC (joinNL ls ++ s) = ls ++ splitLinesC s := by
  induction ls with
  | nil => simp [joinNL]
  | cons l ls' ih =>
    rw [show joinNL (l :: ls') ++ s = l ++ '\n' :: (joinNL ls' ++ s) by
      rw [show joinNL (l :: ls') = l ++ '\n' :: joinNL ls' from rfl]
      simp]
    rw [splitLinesC_cons l _ (h l (by simp))]
    rw [ih (fun y hy => h y (by simp [hy]))]
    simp

/-- Scanner lines never contain a newline. -/
theorem splitLinesC_no_newline (s : Str) : ∀ l ∈ splitLinesC s, '\n' ∉ l := by
  intro l hl
  unfold splitLinesC at hl
  simp only [] at hl
  rcases List.mem_map.mp hl with ⟨p, hp, hdef⟩
  have hmem : p ∈ splitRaw s := by
    by_cases hlast : (splitRaw s).getLast? = some []
    · rw [if_pos hlast] at hp
      exact (List.dropLast_sublist (splitRaw s)).subset hp
    · rw [if_neg hlast] at hp
      exact hp
  have hnp := splitRaw_no_newline s p hmem
  rw [← hdef]
  unfold dropCR
  split
  · intro hc
    exact hnp ((List.dropLast_sublist p).subset hc)
  · exact hnp

/-- Joined clean lines re-split to themselves. -/
theorem splitLinesC_joinNL (ls : List Str) (h : ∀ l ∈ ls, cleanLine l) :
    splitLinesC (joinNL ls) = ls := by
  have h2 := splitLinesC_joinNL_append ls [] h
  simpa [splitLinesC_nil] using h2

/-- Inversion of a successful code-block scan: the remaining input starts
with a fence-free interior and a closing fence, processing resumed in text
state after it, and the output is the interior's echo (under `print`)
followed by the continuation. -/
theorem code_success_inversion (run : Runner) (decode : Decoder) (r : List Str) :
    ∀ (p : Bool) (cur : Str) (n : Nat) (O : Str),
      go run decode (.code p cur) n r = .ok O →
      ∃ body close tail O',
        r = body ++ close :: tail ∧ (∀ x ∈ body, isFence x = false) ∧
        isFence close = true ∧
        go run decode .text (n + body.length + 1) tail = .ok O' ∧
        O = (if p then cur ++ '\n' :: (joinNL body ++ close ++ '\n' :: O') else O') := by
  induction r with
  | nil =>
    intro p cur n O h
    rw [go_code_nil] at h
    cases h
  | cons l₂ r₂ ih =>
    intro p cur n O h
    rw [go_code_cons] at h
    by_cases hf : isFence l₂ = true
    · rw [if_pos hf] at h
      cases hgo : go run decode .text (n + 1) r₂ with
      | error e =>
        rw [hgo] at h
        cases h
      | ok O' =>
        rw [hgo] at h
        simp only [Except.map] at h
        have hO := Except.ok.inj h
        exact ⟨[], l₂, r₂, O', by simp, by simp, hf, by simpa using hgo,
          by simp [joinNL, ← hO]⟩
    · rw [if_neg hf] at h
      cases hgo : go run decode (.code p l₂) (n + 1) r₂ with
      | error e =>
        rw [hgo] at h
        cases h
      | ok O₂ =>
        rw [hgo] at h
        simp only [Except.map] at h
        have hO := Except.ok.inj h
        obtain ⟨body, close, tail, O', hr, hb, hc, hgo', hO₂⟩ := ih p l₂ (n + 1) O₂ hgo
        refine ⟨l₂ :: body, close, tail, O', by simp [hr], ?_, hc, ?_, ?_⟩
        · intro x hx
          rcases List.mem_cons.mp hx with h' | h'
          · subst h'
            simpa using hf
          · exact hb x h'
        · rw [show n + (l₂ :: body).length + 1 = n + 1 + body.length + 1 by
            simp only [List.length_cons]; omega]
          exact hgo'
        · rw [← hO, hO₂]
          cases p <;> simp [joinNL]

/-- Inversion of a successful YAML-block scan: the remaining input is the
block lines, the terminator, and an arbitrary discarded tail; the output
is the echo of the block, the terminator, and the runner's output. -/
theorem yaml_success_inversion (run : Runner) (decode : Decoder) (r : List Str) :
    ∀ (buf : List Str) (cur : Str) (n : Nat) (O : Str),
      go run decode (.yamlCollect buf cur) n r = .ok O →
      ∃ ys tail c R,
        r = ys ++ "---".data :: tail ∧ "---".data ∉ ys ∧
        decode (buf ++ ys) = .ok c ∧ run c = .ok R ∧
        O = cur ++ '\n' :: (joinNL ys ++ "---\n\n".data ++ R) := by
  induction r with
  | nil =>
    intro buf cur n O h
    rw [go_yaml_nil] at h
    cases h
  | cons l₂ r₂ ih =>
    intro buf cur n O h
    rw [go_yaml_cons] at h
    by_cases hterm : l₂ = "---".data
    · rw [if_pos hterm] at h
      cases hdec : decode buf with
      | error e =>
        rw [hdec] at h
        cases h
      | ok c =>
        rw [hdec] at h
        simp only [] at h
        cases hrun : run c with
        | error e =>
          rw [hrun] at h
          cases h
        | ok R =>
          rw [hrun] at h
          simp only [] at h
          have hO := Except.ok.inj h
          exact ⟨[], r₂, c, R, by simp [hterm], by simp, by simpa using hdec, hrun,
            by simp [joinNL, ← hO]⟩
    · rw [if_neg hterm] at h
      cases hgo : go run decode (.yamlCollect (buf ++ [l₂]) l₂) (n + 1) r₂ with
      | error e =>
        rw [hgo] at h
        cases h
      | ok O₂ =>
        rw [hgo] at h
        simp only [Except.map] at h
        have hO := Except.ok.inj h
        obtain ⟨ys, tail, c, R, hr, hys, hdec, hrun, hO₂⟩ := ih (buf ++ [l₂]) l₂ (n + 1) O₂ hgo
        refine ⟨l₂ :: ys, tail, c, R, by simp [hr], ?_, ?_, hrun, ?_⟩
        · intro hmem
          rcases List.mem_cons.mp hmem with h' | h'
          · exact hterm h'.symm
          · exact hys h'
        · simpa [List.append_assoc] using hdec
        · rw [← hO, hO₂]
          simp [joinNL]

/-- Re-scanning a directive line followed by its own generated fenced
block: the directive echoes and runs again, the stale block is consumed
and discarded, and the freshly generated block takes its place. -/
theorem rerun_directive (run : Runner) (decode : Decoder) (l : Str) (n' : Nat)
    (cmd : command) (R f0 f1 : Str) (bodyR T : List Str)
    (hp : parseCommand (afterHash l) = .ok cmd) (hr2 : run cmd = .ok R)
    (hdir : isDirective l = true)
    (hf0 : isFence f0 = true) (hf1 : isFence f1 = true)
    (hbR : ∀ x ∈ bodyR, isFence x = false)
    (hR : R = joinNL (f0 :: bodyR ++ [f1])) :
    go run decode .text n' (l :: f0 :: (bodyR ++ f1 :: T)) =
      (go run decode .text (n' + bodyR.length + 3) T).map
        (fun o => l ++ '\n' :: (R ++ o)) := by
  have hne := directive_ne_embed l hdir
  rw [go_text_cons, if_neg (by simp [hne]), if_pos hdir]
  rw [go_cmd_cons run decode l (n' + 1) f0 (bodyR ++ f1 :: T) cmd R hp hr2, if_pos hf0]
  rw [code_echo run decode false bodyR f0 f1 (n' + 2) T hbR hf1]
  have harith : n' + 2 + bodyR.length + 1 = n' + bodyR.length + 3 := by omega
  rw [harith]
  cases hgo : go run decode .text (n' + bodyR.length + 3) T with
  | error e => simp [hgo, Except.map]
  | ok o => simp [hgo, Except.map, hR, joinNL]

/-- `yamlParser.parse` over a block of lines followed by the `---`
terminator: the lines are echoed and buffered, the buffer is decoded and
run, and nothing after the terminator reaches the output (drop mode reads
and discards the rest of the document). -/
theorem yaml_run (run : Runner) (decode : Decoder) (ys : List Str) :
    ∀ (buf : List Str) (cur : Str) (n : Nat) (tail : List Str) (c : command) (R : Str),
      "---".data ∉ ys → decode (buf ++ ys) = .ok c → run c = .ok R →
      go run decode (.yamlCollect buf cur) n (ys ++ "---".data :: tail) =
        .ok (cur ++ '\n' :: (joinNL ys ++ "---\n\n".data ++ R)) := by
  induction ys with
  | nil =>
    intro buf cur n tail c R _ hdec hrun
    rw [List.append_nil] at hdec
    rw [List.nil_append, go_yaml_cons, if_pos rfl, hdec]
    simp [hrun, joinNL]
  | cons y ys' ih =>
    intro buf cur n tail c R hys hdec hrun
    have hy : ¬ y = "---".data := by
      intro h
      exact hys (by simp [h])
    rw [List.cons_append, go_yaml_cons, if_neg hy]
    rw [ih (buf ++ [y]) y (n + 1) tail c R
      (by intro h; exact hys (by simp [h]))
      (by simpa [List.append_assoc] using hdec) hrun]
    simp [joinNL, Except.map]

/-- C2 (amended): after the front-matter YAML block is terminated by
`---`, decoded and run, every remaining input line is read and discarded —
the output ends with the terminator echo and the command's output,
independent of the rest of the document (`yamlParser` in drop mode never
echoes). -/
theorem process_yaml_drops_tail (run : Runner) (decode : Decoder) (doc : Str)
    (l1 : Str) (ys tail : List Str) (c : command) (R : Str)
    (hsplit : splitLinesC doc = l1 :: "embed:".data :: (ys ++ "---".data :: tail))
    (h1 : isDirective l1 = false) (h2 : isFence l1 = false)
    (hys : "---".data ∉ ys)
    (hdec : decode ys = .ok c) (hrun : run c = .ok R) :
    process run decode doc =
      .ok (l1 ++ '\n' ::
        ("embed:".data ++ '\n' :: (joinNL ys ++ "---\n\n".data ++ R))) := by
  unfold process
  rw [hsplit, go_text_cons, if_neg (by simp), if_neg (by simp [h1]), if_neg (by simp [h2])]
  rw [go_text_cons, if_pos ⟨rfl, rfl⟩]
  rw [yaml_run run decode ys [] "embed:".data 2 tail c R hys (by simpa using hdec) hrun]
  simp [Except.map]

/-- Witness for C2's amended theorem: a concrete document with tail line
`zzz`; the output ends at the command output. -/
theorem process_yaml_drops_tail_witness :
    process plainRunner okDecoder "x\nembed:\na: b\n---\nzzz\n".data =
      .ok ("x".data ++ '\n' ::
        ("embed:".data ++ '\n' ::
          (joinNL ["a: b".data] ++ "---\n\n".data ++ "R\n".data))) :=
  process_yaml_drops_tail plainRunner okDecoder "x\nembed:\na: b\n---\nzzz\n".data
    "x".data ["a: b".data] ["zzz".data] default "R\n".data
    (by decide) (by decide) (by decide) (by decide) (by decide) (by decide)

/-- Counterexample for C2 as stated: the document's post-terminator line
`zzz` is not passed through — the output contains no `z` at all, so the
lines after the YAML block are dropped, not echoed. -/
theorem yaml_tail_not_echoed :
    process plainRunner okDecoder "x\nembed:\na: b\n---\nzzz\n".data =
      .ok "x\nembed:\na: b\n---\n\nR\n".data ∧
    'z' ∈ "x\nembed:\na: b\n---\nzzz\n".data ∧
    'z' ∉ "x\nembed:\na: b\n---\n\nR\n".data :=
  ⟨by decide, by decide, by decide⟩

/-- `joinNL` distributes over append. -/
theorem joinNL_append (a b : List Str) : joinNL (a ++ b) = joinNL a ++ joinNL b := by
  induction a with
  | nil => simp [joinNL]
  | cons x a' ih =>
    rw [List.cons_append]
    rw [show joinNL (x :: (a' ++ b)) = x ++ '\n' :: joinNL (a' ++ b) from rfl]
    rw [show joinNL (x :: a') = x ++ '\n' :: joinNL a' from rfl]
    rw [ih]
    simp

/-- `joinNL` as a fold with arbitrary initial accumulator. -/
theorem foldr_joinNL (body : List Str) (X : Str) :
    List.foldr (fun l acc => l ++ '\n' :: acc) X body = joinNL body ++ X := by
  induction body with
  | nil => simp [joinNL]
  | cons y ys ih =>
    rw [List.foldr_cons, ih]
    rw [show joinNL (y :: ys) = y ++ '\n' :: joinNL ys from rfl]
    simp

/-- Peeling one echoed clean line group off a split. -/
theorem splitLinesC_line_group (l : Str) (ls : List Str) (X : Str)
    (hl : cleanLine l) (hls : ∀ x ∈ ls, cleanLine x) :
    splitLinesC (l ++ '\n' :: (joinNL ls ++ X)) = l :: (ls ++ splitLinesC X) := by
  rw [show l ++ '\n' :: (joinNL ls ++ X) = joinNL (l :: ls) ++ X by simp [joinNL]]
  rw [splitLinesC_joinNL_append (l :: ls) X ?hclean]
  · simp
  · intro y hy
    rcases List.mem_cons.mp hy with h | h
    · rw [h]; exact hl
    · exact hls y h

/-- Chain restriction to the right part of an append. -/
theorem chain'_right {rel : Str → Str → Prop} (xs ys : List Str)
    (h : List.Chain' rel (xs ++ ys)) : List.Chain' rel ys :=
  (List.chain'_append.mp h).2.1

/-- The idempotence induction: if scanning succeeds from text state with
output `O`, re-scanning `O`'s lines from text state reproduces `O` —
provided every runner output is a balanced fenced block, the lines are
clean, no directive line directly follows another, and the two scan
positions agree whenever the position-sensitive `embed:` check (line 2)
is in reach. -/
theorem go_idem (run : Runner) (decode : Decoder) (hrun : GoodRunner run) :
    ∀ (k : Nat) (ls : List Str) (n n' : Nat) (O : Str),
      ls.length ≤ k →
      (∀ l ∈ ls, cleanLine l) →
      List.Chain' dirStep ls →
      ((n ≤ 1 ∨ n' ≤ 1) → n = n') →
      go run decode .text n ls = .ok O →
      go run decode .text n' (splitLinesC O) = .ok O := by
  intro k
  induction k with
  | zero =>
    intro ls n n' O hlen hclean hchain hpos h
    have hnil : ls = [] := List.eq_nil_of_length_eq_zero (Nat.le_zero.mp hlen)
    subst hnil
    rw [go_text_nil] at h
    have hO : O = [] := (Except.ok.inj h).symm
    subst hO
    rw [splitLinesC_nil, go_text_nil]
  | succ k ih =>
    intro ls n n' O hlen hclean hchain hpos h
    cases ls with
    | nil =>
      rw [go_text_nil] at h
      have hO : O = [] := (Except.ok.inj h).symm
      subst hO
      rw [splitLinesC_nil, go_text_nil]
    | cons l r =>
      rw [go_text_cons] at h
      by_cases htrig : n + 1 = 2 ∧ l = "embed:".data
      · -- YAML front matter: everything after the block is dropped and
        -- regenerated identically on the re-run.
        rw [if_pos htrig] at h
        have hn' : n' = 1 := by
          have := hpos (Or.inl (by omega))
          omega
        obtain ⟨ys, tail, c, R, hr, hys, hdec, hrun2, hO⟩ :=
          yaml_success_inversion run decode r [] l (n + 1) O h
        subst hO
        have hys_clean : ∀ x ∈ ys, cleanLine x := by
          intro x hx
          exact hclean x (by rw [hr]; simp [hx])
        have hsplit : splitLinesC (l ++ '\n' :: (joinNL ys ++ "---\n\n".data ++ R)) =
            l :: ((ys ++ ["---".data]) ++ ([] :: splitLinesC R)) := by
          rw [show joinNL ys ++ "---\n\n".data ++ R =
              joinNL (ys ++ ["---".data]) ++ ([] ++ '\n' :: R) by
            rw [joinNL_append]
            simp [joinNL]]
          rw [show (l ++ '\n' :: (joinNL (ys ++ ["---".data]) ++ ([] ++ '\n' :: R)) : Str) =
              joinNL (l :: (ys ++ ["---".data])) ++ ([] ++ '\n' :: R) by simp [joinNL]]
          rw [splitLinesC_joinNL_append _ _ ?cl]
          case cl =>
            intro y hy
            rcases List.mem_cons.mp hy with h' | h'
            · rw [h']
              exact hclean l (by simp)
            · rcases List.mem_append.mp h' with h'' | h''
              · exact hys_clean y h''
              · rw [List.mem_singleton.mp h'']
                constructor <;> decide
          rw [splitLinesC_cons [] R (by constructor <;> decide)]
          simp
        rw [hsplit, go_text_cons, if_pos ⟨by omega, htrig.2⟩]
        rw [show ((ys ++ ["---".data]) ++ ([] :: splitLinesC R) : List Str) =
            ys ++ "---".data :: ([] :: splitLinesC R) by simp]
        rw [yaml_run run decode ys [] l (n' + 1) ([] :: splitLinesC R) c R hys hdec hrun2]
      · rw [if_neg htrig] at h
        by_cases hdir : isDirective l = true
        · -- Inline directive: the generated fenced block re-scans to the
          -- runner's identical output.
          rw [if_pos hdir] at h
          cases hp : parseCommand (afterHash l) with
          | error e =>
            rw [go_cmd_parse_err run decode l (n + 1) r e hp] at h
            cases h
          | ok cmd =>
            cases hr2 : run cmd with
            | error e =>
              rw [go_cmd_run_err run decode l (n + 1) r cmd e hp hr2] at h
              cases h
            | ok R =>
              obtain ⟨f0, bodyR, f1, hR, hf0, hf1, hbR, hRclean⟩ := hrun cmd R hr2
              have hRsplit : splitLinesC R = f0 :: (bodyR ++ [f1]) := by
                rw [hR]
                exact splitLinesC_joinNL (f0 :: bodyR ++ [f1]) hRclean
              cases r with
              | nil =>
                rw [go_cmd_nil run decode l (n + 1) cmd R hp hr2] at h
                have hO : O = l ++ '\n' :: R := (Except.ok.inj h).symm
                subst hO
                have hsplit : splitLinesC (l ++ '\n' :: R) =
                    l :: (f0 :: (bodyR ++ f1 :: ([] : List Str))) := by
                  rw [show (l ++ '\n' :: R : Str) = l ++ '\n' :: (joinNL (f0 :: bodyR ++ [f1]) ++ []) by
                    simp [hR]]
                  rw [splitLinesC_line_group l _ [] (hclean l (by simp)) hRclean]
                  simp [splitLinesC_nil]
                rw [hsplit,
                  rerun_directive run decode l n' cmd R f0 f1 bodyR [] hp hr2 hdir hf0 hf1 hbR hR]
                rw [go_text_nil]
                simp [Except.map, foldr_joinNL, List.append_assoc]
              | cons l₂ r₂ =>
                rw [go_cmd_cons run decode l (n + 1) l₂ r₂ cmd R hp hr2] at h
                by_cases hf2 : isFence l₂ = true
                · -- stale fenced block after the directive: dropped on the
                  -- first run, and the regenerated block re-scans in place
                  rw [if_pos hf2] at h
                  cases hgo2 : go run decode (.code false l₂) (n + 2) r₂ with
                  | error e =>
                    rw [hgo2] at h
                    cases h
                  | ok O₂ =>
                    rw [hgo2] at h
                    simp only [Except.map] at h
                    have hO : O = l ++ '\n' :: (R ++ O₂) := (Except.ok.inj h).symm
                    subst hO
                    obtain ⟨body₂, close₂, tail₂, O₂', hr₂, hb₂, hc₂, hgo₂', hO₂⟩ :=
                      code_success_inversion run decode r₂ false l₂ (n + 2) O₂ hgo2
                    have hEqO : O₂ = O₂' := by simpa using hO₂
                    subst hEqO
                    have hlen' : tail₂.length ≤ k := by
                      rw [hr₂] at hlen
                      simp [List.length_append] at hlen
                      omega
                    have hclean' : ∀ x ∈ tail₂, cleanLine x := by
                      intro x hx
                      exact hclean x (by rw [hr₂]; simp [hx])
                    have hchain' : List.Chain' dirStep tail₂ := by
                      have : List.Chain' dirStep ((l :: l₂ :: body₂ ++ [close₂]) ++ tail₂) := by
                        simpa [hr₂] using hchain
                      exact chain'_right _ _ this
                    have hidem := ih tail₂ (n + 2 + body₂.length + 1)
                      (n' + bodyR.length + 3) O₂ hlen' hclean' hchain'
                      (by intro hx; omega) hgo₂'
                    have hsplit : splitLinesC (l ++ '\n' :: (R ++ O₂)) =
                        l :: (f0 :: (bodyR ++ f1 :: splitLinesC O₂)) := by
                      rw [show (l ++ '\n' :: (R ++ O₂) : Str) =
                          l ++ '\n' :: (joinNL (f0 :: bodyR ++ [f1]) ++ O₂) by simp [hR]]
                      rw [splitLinesC_line_group l _ O₂ (hclean l (by simp)) hRclean]
                      simp
                    rw [hsplit,
                      rerun_directive run decode l n' cmd R f0 f1 bodyR (splitLinesC O₂)
                        hp hr2 hdir hf0 hf1 hbR hR]
                    rw [hidem]
                    simp [Except.map, foldr_joinNL, List.append_assoc]
                · -- plain following line: echoed on both runs
                  rw [if_neg hf2] at h
                  cases hgo3 : go run decode .text (n + 2) r₂ with
                  | error e =>
                    rw [hgo3] at h
                    cases h
                  | ok O₃ =>
                    rw [hgo3] at h
                    simp only [Except.map] at h
                    have hO : O = l ++ '\n' :: (R ++ l₂ ++ '\n' :: O₃) := (Except.ok.inj h).symm
                    subst hO
                    have hd₂ : isDirective l₂ = false :=
                      (List.chain'_cons.mp hchain).1 hdir
                    have hlen' : r₂.length ≤ k := by
                      simp at hlen
                      omega
                    have hclean' : ∀ x ∈ r₂, cleanLine x := by
                      intro x hx
                      exact hclean x (by simp [hx])
                    have hchain' : List.Chain' dirStep r₂ :=
                      (List.chain'_cons.mp hchain).2.tail
                    have hidem := ih r₂ (n + 2) (n' + bodyR.length + 3 + 1) O₃ hlen'
                      hclean' hchain' (by intro hx; omega) hgo3
                    have hsplit : splitLinesC (l ++ '\n' :: (R ++ l₂ ++ '\n' :: O₃)) =
                        l :: (f0 :: (bodyR ++ f1 :: (l₂ :: splitLinesC O₃))) := by
                      rw [show (l ++ '\n' :: (R ++ l₂ ++ '\n' :: O₃) : Str) =
                          l ++ '\n' :: (joinNL (f0 :: bodyR ++ [f1]) ++ (l₂ ++ '\n' :: O₃)) by
                        simp [hR]]
                      rw [splitLinesC_line_group l _ _ (hclean l (by simp)) hRclean]
                      rw [splitLinesC_cons l₂ O₃ (hclean l₂ (by simp))]
                      simp
                    rw [hsplit,
                      rerun_directive run decode l n' cmd R f0 f1 bodyR (l₂ :: splitLinesC O₃)
                        hp hr2 hdir hf0 hf1 hbR hR]
                    rw [go_text_cons,
                      if_neg (fun hx => absurd hx.1 (by omega)),
                      if_neg (by simp [hd₂]), if_neg (by simp [hf2])]
                    rw [hidem]
                    simp [Except.map, foldr_joinNL, List.append_assoc]
        · by_cases hfen : isFence l = true
          · -- echoed fenced block: re-scans verbatim
            rw [if_neg hdir, if_pos hfen] at h
            obtain ⟨body, close, tail, O', hr, hb, hc, hgo', hO⟩ :=
              code_success_inversion run decode r true l (n + 1) O h
            have hO' : O = l ++ '\n' :: (joinNL body ++ close ++ '\n' :: O') := by
              simpa using hO
            subst hO'
            subst hr
            have hlen' : tail.length ≤ k := by
              simp [List.length_append] at hlen
              omega
            have hclean' : ∀ x ∈ tail, cleanLine x := by
              intro x hx
              exact hclean x (by simp [hx])
            have hchain' : List.Chain' dirStep tail := by
              have : List.Chain' dirStep ((l :: body ++ [close]) ++ tail) := by
                simpa using hchain
              exact chain'_right _ _ this
            have hidem := ih tail (n + 1 + body.length + 1) (n' + 1 + body.length + 1) O'
              hlen' hclean' hchain' (by intro hx; omega) hgo'
            have hsplit : splitLinesC (l ++ '\n' :: (joinNL body ++ close ++ '\n' :: O')) =
                l :: (body ++ close :: splitLinesC O') := by
              rw [show (l ++ '\n' :: (joinNL body ++ close ++ '\n' :: O') : Str) =
                  l ++ '\n' :: (joinNL (body ++ [close]) ++ O') by
                rw [joinNL_append]
                simp [joinNL]]
              rw [splitLinesC_line_group l _ O' (hclean l (by simp)) ?cl2]
              · simp
              · intro y hy
                rcases List.mem_append.mp hy with h' | h'
                · exact hclean y (by simp [h'])
                · rw [List.mem_singleton.mp h']
                  exact hclean close (by simp)
            rw [hsplit,
              fenced_block_passthrough run decode n' l close body (splitLinesC O') hfen hb hc]
            rw [show n' + body.length + 2 = n' + 1 + body.length + 1 by omega, hidem]
            simp [Except.map, foldr_joinNL, List.append_assoc]
          · -- plain text line
            rw [if_neg hdir, if_neg hfen] at h
            cases hgo4 : go run decode .text (n + 1) r with
            | error e =>
              rw [hgo4] at h
              cases h
            | ok O₁ =>
              rw [hgo4] at h
              simp only [Except.map] at h
              have hO : O = l ++ '\n' :: O₁ := (Except.ok.inj h).symm
              subst hO
              have hlen' : r.length ≤ k := by
                simp at hlen
                omega
              have hidem := ih r (n + 1) (n' + 1) O₁ hlen'
                (fun x hx => hclean x (by simp [hx])) hchain.tail
                (by
                  intro hx
                  have h1 : n ≤ 1 ∨ n' ≤ 1 := by omega
                  have := hpos h1
                  omega) hgo4
              have hsplit : splitLinesC (l ++ '\n' :: O₁) = l :: splitLinesC O₁ :=
                splitLinesC_cons l O₁ (hclean l (by simp))
              have htrig' : ¬(n' + 1 = 2 ∧ l = "embed:".data) := by
                intro hx
                have h1 : n = n' := hpos (Or.inr (by omega))
                exact htrig ⟨by omega, hx.2⟩
              rw [hsplit, go_text_cons, if_neg htrig', if_neg (by simp [hdir]),
                if_neg (by simp [hfen])]
              rw [hidem]
              simp [Except.map]

/-- C1 (amended): idempotence of document processing with a fixed
deterministic runner, restricted as the code forces: every successful
runner output is a balanced fenced block (as `runCommand` produces for
`type == Code` commands whose content opens no fence), no directive line
is directly followed by another directive line, and no scanned line ends
in a carriage return.  Then for every document on which `process` succeeds
with output `O`, running `process` on `O` succeeds and yields exactly `O`:
in particular the fenced block directly after a directive line is consumed
and replaced by the freshly generated one, not duplicated. -/
theorem process_idempotent (run : Runner) (decode : Decoder) (D O : Str)
    (hrun : GoodRunner run)
    (hcr : ∀ l ∈ splitLinesC D, l.getLast? ≠ some '\r')
    (hchain : List.Chain' dirStep (splitLinesC D))
    (h : process run decode D = .ok O) :
    process run decode O = .ok O := by
  unfold process at h ⊢
  exact go_idem run decode hrun (splitLinesC D).length (splitLinesC D) 0 0 O le_rfl
    (fun l hl => ⟨splitLinesC_no_newline D l hl, hcr l hl⟩) hchain (fun _ => rfl) h

/-- The fixed fenced runner satisfies the balanced-block condition. -/
theorem goodRunner_fencedRunner : GoodRunner fencedRunner := by
  intro c R h
  have hR : R = "```go\nx\n```\n".data := (Except.ok.inj h).symm
  subst hR
  exact ⟨"```go".data, ["x".data], "```".data, by decide, by decide, by decide,
    by decide, by decide⟩

/-- Witness for C1's amended theorem: re-processing the output of a
one-directive document reproduces it byte for byte. -/
theorem process_idempotent_witness :
    process fencedRunner failDecoder
        "hi\n[embedmd]:# (code.go)\n```go\nx\n```\nbye\n".data =
      .ok "hi\n[embedmd]:# (code.go)\n```go\nx\n```\nbye\n".data :=
  process_idempotent fencedRunner failDecoder
    "hi\n[embedmd]:# (code.go)\nbye\n".data
    "hi\n[embedmd]:# (code.go)\n```go\nx\n```\nbye\n".data
    goodRunner_fencedRunner (by decide)
    (by
      rw [show splitLinesC "hi\n[embedmd]:# (code.go)\nbye\n".data =
          ["hi".data, "[embedmd]:# (code.go)".data, "bye".data] from by decide]
      refine List.chain'_cons.mpr ⟨fun h => absurd h (by decide),
        List.chain'_cons.mpr ⟨fun _ => by decide, List.chain'_singleton _⟩⟩)
    (by decide)

/-- Counterexample for C1 as stated: with the fixed fetcher serving
`code.go` as `x`, the `noCode` directive's output is unfenced, so
re-processing appends a second copy of the content instead of replacing
it — `process` is not idempotent on every succeeding document. -/
theorem process_noCode_not_idempotent :
    process (runnerOf fetchX []) failDecoder "[embedmd]:# (code.go noCode)\n".data =
      .ok "[embedmd]:# (code.go noCode)\nx\n".data ∧
    process (runnerOf fetchX []) failDecoder "[embedmd]:# (code.go noCode)\nx\n".data =
      .ok "[embedmd]:# (code.go noCode)\nx\nx\n".data ∧
    ("[embedmd]:# (code.go noCode)\nx\nx\n".data : Str) ≠
      "[embedmd]:# (code.go noCode)\nx\n".data :=
  ⟨by decide, by decide, by decide⟩

/-- Witness for C10: a safe command, and the two panicking shapes. -/
theorem extract_deref_safety_witness :
    extract "ab".data { (default : command) with Start := some ("/a/".data) } ≠ none ∧
    extract "ab".data { (default : command) with End_ := some ("/a/".data) } = none ∧
    extract "ab".data { (default : command) with Start := some ([] : Str) } = none :=
  ⟨(extract_deref_safety _ _).1 (by decide) (by decide),
   (extract_deref_safety _ _).2.1 rfl (by decide),
   (extract_deref_safety _ _).2.2 rfl rfl⟩

end Embedmd
